import Mathlib

/-
Shallow embedding of the authoritative multiplayer game server
(`multiplayerServer.js`).  JS `Map`s are modelled as insertion-ordered
association lists, JS numbers as exact rationals (integers where the code only
ever stores integers), and `Date.now()` timestamps as naturals (milliseconds).
Timer callbacks (`setTimeout` bodies) are modelled as separate functions that
act on the player object they captured.  Socket emissions are collected as an
explicit event list.
-/

namespace GameServer

/-- A 3D vector with exact rational coordinates. -/
structure Vec3 where
  x : ℚ
  y : ℚ
  z : ℚ
deriving DecidableEq

/-- The 2D horizontal velocity stored on a player (`{ x, z }`). -/
structure Vel2 where
  x : ℚ
  z : ℚ
deriving DecidableEq

/-- A player record, as built by `initializePlayer` and mutated by the
handlers.  `lastFireTime` is absent until the first fire attempt; the code
defaults it to `0` before use, so it is modelled as a natural defaulting
to `0`. -/
structure Player where
  id : String
  position : Vec3
  rotation : Vec3
  velocity : Vel2
  health : ℤ
  maxHealth : ℤ
  ammo : ℤ
  totalAmmo : ℤ
  isReloading : Bool
  lastUpdate : ℕ
  name : String
  kills : ℕ
  deaths : ℕ
  lastFireTime : ℕ
deriving DecidableEq

/-- A bullet record, as built by `handlePlayerFire`. -/
structure Bullet where
  id : String
  playerId : String
  position : Vec3
  direction : Vec3
  speed : ℚ
  damage : ℤ
  createdAt : ℕ
  lifetime : ℕ
deriving DecidableEq

/-- A JS `Map` keyed by strings, as an insertion-ordered association list. -/
abbrev Store (α : Type) := List (String × α)

/-- `map.get(k)`. -/
def mapGet {α : Type} (k : String) : Store α → Option α
  | [] => none
  | kv :: rest => if kv.1 = k then some kv.2 else mapGet k rest

/-- `map.set(k, v)`: replaces in place when the key is present, appends
otherwise (JS `Map`s keep the original insertion position on overwrite). -/
def mapSet {α : Type} (k : String) (v : α) : Store α → Store α
  | [] => [(k, v)]
  | kv :: rest => if kv.1 = k then (k, v) :: rest else kv :: mapSet k v rest

/-- `map.delete(k)`. -/
def mapDelete {α : Type} (k : String) : Store α → Store α
  | [] => []
  | kv :: rest => if kv.1 = k then mapDelete k rest else kv :: mapDelete k rest

/-- In-place mutation of the object stored under key `k` (JS object mutation
through a reference: entries under other keys are untouched, and nothing
happens when no entry has key `k`). -/
def storeUpdate {α : Type} (k : String) (f : α → α) : Store α → Store α
  | [] => []
  | kv :: rest =>
    if kv.1 = k then (kv.1, f kv.2) :: storeUpdate k f rest
    else kv :: storeUpdate k f rest

/-- The socket events emitted by the server, with the payload fields the
code sends. -/
inductive GameEvent where
  | gameInit (playerId : String)
  | playerJoined (p : Player)
  | playerFired (playerId bulletId : String) (position direction : Vec3) (ammo : ℤ)
  | reloadComplete (ammo totalAmmo : ℤ)
  | playerHit (hitPlayerId shooterId : String) (damage newHealth : ℤ) (bulletId : String)
  | playerKilled (killedPlayerId killerId killerName victimName : String)
  | playerRespawned (playerId : String) (position : Vec3) (health : ℤ)
  | bulletExpired (bulletId : String)
  | playerLeft (playerId : String)
deriving DecidableEq

/-- Where an event is sent: `io.emit` (all), `io.to(room).emit` (one room),
or `socket.broadcast.emit` (everyone but the sender). -/
inductive Target where
  | all
  | room (id : String)
  | others (id : String)
deriving DecidableEq

/-- One `emit` call: a target and an event. -/
structure Emission where
  target : Target
  event : GameEvent
deriving DecidableEq

/-- The mutable server state: the two keyed collections. -/
structure GameState where
  players : Store Player
  bullets : Store Bullet
deriving DecidableEq

/-- The fresh player record built on connection (`initializePlayer`);
`now` models `Date.now()`. -/
def initialPlayer (now : ℕ) (id : String) : Player where
  id := id
  position := ⟨0, 1.8, 0⟩
  rotation := ⟨0, 0, 0⟩
  velocity := ⟨0, 0⟩
  health := 100
  maxHealth := 100
  ammo := 30
  totalAmmo := 120
  isReloading := false
  lastUpdate := now
  name := "Player_" ++ id.take 6
  kills := 0
  deaths := 0
  lastFireTime := 0

/-- `initializePlayer`: store the new player, send `game-init` to the new
socket and `player-joined` to the others. -/
def initializePlayer (now : ℕ) (id : String) (s : GameState) :
    GameState × List Emission :=
  let player := initialPlayer now id
  ({ s with players := mapSet id player s.players },
   [⟨Target.room id, GameEvent.gameInit id⟩,
    ⟨Target.others id, GameEvent.playerJoined player⟩])

/-- The payload of a `player-fire` event. -/
structure FireData where
  position : Vec3
  direction : Vec3
deriving DecidableEq

/-- `startReload`'s synchronous part: set the reloading flag (the delayed
part is `completeReload`, fired later). -/
def startReloadSync (p : Player) : Player := { p with isReloading := true }

/-- The earliest entry, in store order, among those with minimal `createdAt`:
the head of `Array.from(entries).sort((a, b) => a.createdAt - b.createdAt)`
under a stable sort. -/
def oldestEntry : Store Bullet → Option (String × Bullet)
  | [] => none
  | e :: rest =>
    match oldestEntry rest with
    | none => some e
    | some o => if o.2.createdAt < e.2.createdAt then some o else some e

/-- `MAX_BULLETS`. -/
def MAX_BULLETS : ℕ := 500

/-- The mutation a successful fire performs on the shooter: record the fire
time, decrement ammo, and auto-reload when the magazine empties with reserve
left. -/
def firedPlayer (now : ℕ) (p : Player) : Player :=
  let p := { p with lastFireTime := now, ammo := p.ammo - 1 }
  if p.ammo ≤ 0 ∧ p.totalAmmo > 0 then startReloadSync p else p

/-- The bullet record a successful fire creates. -/
def mkBullet (now : ℕ) (pid : String) (data : FireData) (bulletId : String) : Bullet where
  id := bulletId
  playerId := pid
  position := data.position
  direction := data.direction
  speed := 50
  damage := 25
  createdAt := now
  lifetime := 3000

/-- The capacity check after insertion: past `MAX_BULLETS`, delete the head of
the store sorted by `createdAt` (the oldest). -/
def capBullets (bs : Store Bullet) : Store Bullet :=
  if bs.length > MAX_BULLETS then
    match oldestEntry bs with
    | some old => mapDelete old.1 bs
    | none => bs
  else bs

/-- `handlePlayerFire`.  `now` models `Date.now()` and `bulletId` the
generated id `id + "_" + Date.now() + "_" + Math.random()`. -/
def handlePlayerFire (now : ℕ) (pid : String) (data : FireData)
    (bulletId : String) (s : GameState) : GameState × List Emission :=
  match mapGet pid s.players with
  | none => (s, [])
  | some player =>
    if player.health ≤ 0 ∨ player.isReloading = true ∨ player.ammo ≤ 0 then (s, [])
    else if now - player.lastFireTime < 100 then (s, [])
    else
      let player := firedPlayer now player
      let bullet := mkBullet now pid data bulletId
      let bullets := capBullets (mapSet bulletId bullet s.bullets)
      ({ players := mapSet pid player s.players, bullets := bullets },
       [⟨Target.all,
         GameEvent.playerFired pid bulletId bullet.position bullet.direction player.ammo⟩])

/-- `handlePlayerReload` (explicit reload request). -/
def handlePlayerReload (pid : String) (s : GameState) : GameState :=
  match mapGet pid s.players with
  | none => s
  | some player =>
    if player.isReloading = true ∨ player.totalAmmo ≤ 0 ∨ player.ammo ≥ 30 then s
    else { s with players := mapSet pid (startReloadSync player) s.players }

/-- The body of the `setTimeout` callback in `startReload`, acting on the
captured player object. -/
def completeReload (p : Player) : Player :=
  let ammoNeeded := 30 - p.ammo
  let ammoToReload := min ammoNeeded p.totalAmmo
  { p with
    ammo := p.ammo + ammoToReload
    totalAmmo := p.totalAmmo - ammoToReload
    isReloading := false }

/-- Firing of the reload timer scheduled by `startReload`.  The callback holds
a reference to the captured player object and performs no lookup: the mutation
is visible in the store only when that object is still stored (same id, same
object), and the `reload-complete` emission to the player's room happens
unconditionally, built from the mutated object's fields. -/
def reloadTimerFire (captured : Player) (s : GameState) : GameState × List Emission :=
  let p := completeReload captured
  ({ s with players := storeUpdate captured.id (fun _ => p) s.players },
   [⟨Target.room captured.id, GameEvent.reloadComplete p.ammo p.totalAmmo⟩])

/-- `respawnPlayer`.  `rx` and `rz` model the two `(Math.random() - 0.5) * 50`
samples. -/
def respawnPlayer (rx rz : ℚ) (p : Player) : Player :=
  { p with
    health := p.maxHealth
    ammo := 30
    totalAmmo := 120
    isReloading := false
    position := ⟨rx, 1.8, rz⟩ }

/-- Firing of the respawn timer scheduled by `handlePlayerHit`.  Like the
reload timer it acts on the captured object with no lookup, and the
`player-respawned` broadcast to all clients happens unconditionally. -/
def respawnTimerFire (captured : Player) (rx rz : ℚ) (s : GameState) :
    GameState × List Emission :=
  let p := respawnPlayer rx rz captured
  ({ s with players := storeUpdate captured.id (fun _ => p) s.players },
   [⟨Target.all, GameEvent.playerRespawned captured.id p.position p.health⟩])

/-- The bullet-deletion loop in `handleDisconnect`: drop every bullet owned
by the departing player. -/
def removePlayerBullets (pid : String) : Store Bullet → Store Bullet
  | [] => []
  | kv :: rest =>
    if kv.2.playerId = pid then removePlayerBullets pid rest
    else kv :: removePlayerBullets pid rest

/-- `handleDisconnect`. -/
def handleDisconnect (pid : String) (s : GameState) : GameState × List Emission :=
  match mapGet pid s.players with
  | none => (s, [])
  | some _ =>
    ({ players := mapDelete pid s.players,
       bullets := removePlayerBullets pid s.bullets },
     [⟨Target.others pid, GameEvent.playerLeft pid⟩])

/-- The constant delta written in `updateBullets`: `const deltaTime = 0.016`. -/
def deltaTime : ℚ := 0.016

/-- The per-tick motion of one bullet:
`position += direction * speed * deltaTime`, componentwise. -/
def moveBullet (b : Bullet) : Bullet :=
  { b with position :=
      ⟨b.position.x + b.direction.x * b.speed * deltaTime,
       b.position.y + b.direction.y * b.speed * deltaTime,
       b.position.z + b.direction.z * b.speed * deltaTime⟩ }

/-- `updateBullets`: move every bullet, then delete (and announce) the ones
past their lifetime. -/
def updateBullets (now : ℕ) : Store Bullet → Store Bullet × List Emission
  | [] => ([], [])
  | (bid, b) :: rest =>
    let b := moveBullet b
    let r := updateBullets now rest
    if now - b.createdAt > b.lifetime then
      (r.1, ⟨Target.all, GameEvent.bulletExpired bid⟩ :: r.2)
    else ((bid, b) :: r.1, r.2)

/-- The squared Euclidean distance between two points. -/
def dist2 (a b : Vec3) : ℚ :=
  (a.x - b.x) ^ 2 + (a.y - b.y) ^ 2 + (a.z - b.z) ^ 2

/-- The hit test of `checkBulletCollisions`:
`Math.sqrt(dx*dx + dy*dy + dz*dz) < 0.8`. -/
def hitTest (a b : Vec3) : Prop :=
  Real.sqrt ((dist2 a b : ℚ) : ℝ) < 0.8

/-- The hit test is decidable: for a nonnegative radicand,
`sqrt d < 0.8` is equivalent to the exact rational comparison `d < 16/25`. -/
instance (a b : Vec3) : Decidable (hitTest a b) :=
  decidable_of_iff (dist2 a b < 16 / 25) (by
    unfold hitTest
    rw [Real.sqrt_lt' (by norm_num : (0 : ℝ) < 0.8),
      show ((0.8 : ℝ)) ^ 2 = ((16 / 25 : ℚ) : ℝ) by norm_num]
    exact Rat.cast_lt.symm)

/-- The inner player loop of `checkBulletCollisions` for one bullet: scan the
players in store order, `continue` past the owning shooter and past dead
players, and stop at the first remaining player within the hit radius. -/
def scanPlayers (b : Bullet) : Store Player → Option (String × Player)
  | [] => none
  | kv :: rest =>
    if b.playerId = kv.1 ∨ kv.2.health ≤ 0 then scanPlayers b rest
    else if hitTest b.position kv.2.position then some kv
    else scanPlayers b rest

/-- `handlePlayerHit`, at store level: `hitKey`/`hitPlayer` are the store entry
the scan found.  A missing shooter aborts before any mutation; otherwise the
victim's health drops by the bullet's damage, a `player-hit` broadcast goes
out, and on death the counters are bumped and `player-killed` is broadcast
(the respawn `setTimeout` is modelled as the separate `respawnTimerFire`). -/
def handlePlayerHit (b : Bullet) (hitKey : String) (hitPlayer : Player)
    (ps : Store Player) : Store Player × List Emission :=
  match mapGet b.playerId ps with
  | none => (ps, [])
  | some shooter =>
    let hp := { hitPlayer with health := hitPlayer.health - b.damage }
    let hitEv : Emission :=
      ⟨Target.all, GameEvent.playerHit hitPlayer.id shooter.id b.damage hp.health b.id⟩
    if hp.health ≤ 0 then
      let hp := { hp with deaths := hp.deaths + 1 }
      let ps := storeUpdate hitKey (fun _ => hp) ps
      let ps := storeUpdate b.playerId (fun q => { q with kills := q.kills + 1 }) ps
      (ps,
       [hitEv,
        ⟨Target.all,
         GameEvent.playerKilled hitPlayer.id shooter.id shooter.name hitPlayer.name⟩])
    else (storeUpdate hitKey (fun _ => hp) ps, [hitEv])

/-- The outer loop of `checkBulletCollisions`: for each bullet in store order,
scan the players; on a hit, resolve it, delete the bullet and `break`.
Returns the surviving bullets, the updated players, and the emissions. -/
def checkBulletCollisions :
    Store Bullet → Store Player → Store Bullet × Store Player × List Emission
  | [], ps => ([], ps, [])
  | (bid, b) :: rest, ps =>
    match scanPlayers b ps with
    | some kv =>
      let r := handlePlayerHit b kv.1 kv.2 ps
      let t := checkBulletCollisions rest r.1
      (t.1, t.2.1, r.2 ++ t.2.2)
    | none =>
      let t := checkBulletCollisions rest ps
      ((bid, b) :: t.1, t.2.1, t.2.2)

/-- `cleanupInactivePlayers`: remove players whose last update is more than
60000 ms old, announcing each departure. -/
def cleanupInactivePlayers (now : ℕ) : Store Player → Store Player × List Emission
  | [] => ([], [])
  | kv :: rest =>
    let r := cleanupInactivePlayers now rest
    if now - kv.2.lastUpdate > 60000 then
      (r.1, ⟨Target.all, GameEvent.playerLeft kv.1⟩ :: r.2)
    else (kv :: r.1, r.2)

/-- One simulation tick (`updateGameState`, minus the tick counter): move and
expire bullets, run the collision pass, sweep inactive players. -/
def updateGameState (now : ℕ) (s : GameState) : GameState × List Emission :=
  let ub := updateBullets now s.bullets
  let col := checkBulletCollisions ub.1 s.players
  let cip := cleanupInactivePlayers now col.2.1
  ({ players := cip.1, bullets := col.1 }, ub.2 ++ col.2.2 ++ cip.2)

/-- The periodic sweep of `startCleanupLoop`: silently drop expired bullets. -/
def cleanupBullets (now : ℕ) : Store Bullet → Store Bullet
  | [] => []
  | kv :: rest =>
    if now - kv.2.createdAt > kv.2.lifetime then cleanupBullets now rest
    else kv :: cleanupBullets now rest

/-- The anti-cheat velocity clamp inside `handlePlayerUpdate`, over exact
reals: `speed = Math.sqrt(vx^2 + vz^2)`; when `speed > 0.5` both horizontal
components are scaled by `0.5 / speed`. -/
noncomputable def clampVelocity (vx vz : ℝ) : ℝ × ℝ :=
  let maxSpeed : ℝ := 0.5
  let speed := Real.sqrt (vx ^ 2 + vz ^ 2)
  if speed > maxSpeed then
    let factor := maxSpeed / speed
    (vx * factor, vz * factor)
  else (vx, vz)

/-- A JS number as seen by `isValidPosition`: a finite value, `NaN`, or an
infinity.  `typeof` is `"number"` for all of these. -/
inductive JSNum where
  | finite (q : ℚ)
  | nan
  | posInf
  | negInf
deriving DecidableEq

/-- A JS value in a position field: either a number, or anything whose
`typeof` is not `"number"` (string, `undefined`, object, ...). -/
inductive JSVal where
  | number (n : JSNum)
  | nonNumber
deriving DecidableEq

/-- A candidate `position` object from the network. -/
structure JSPosition where
  x : JSVal
  z : JSVal
deriving DecidableEq

/-- `Math.abs` on a JS number. -/
def jsAbs : JSNum → JSNum
  | .finite q => .finite |q|
  | .nan => .nan
  | .posInf => .posInf
  | .negInf => .posInf

/-- The JS `>` comparison on numbers: any comparison with `NaN` is false. -/
def jsGt : JSNum → JSNum → Bool
  | .finite a, .finite b => a > b
  | .nan, _ => false
  | _, .nan => false
  | .posInf, .posInf => false
  | .posInf, _ => true
  | .negInf, _ => false
  | .finite _, .posInf => false
  | .finite _, .negInf => true

/-- `isValidPosition`: reject a missing position or a coordinate whose
`typeof` is not `"number"`, then reject when `Math.abs(x) > 1000` or
`Math.abs(z) > 1000` compares true. -/
def isValidPosition : Option JSPosition → Bool
  | none => false
  | some pos =>
    match pos.x, pos.z with
    | .number nx, .number nz =>
      if jsGt (jsAbs nx) (.finite 1000) || jsGt (jsAbs nz) (.finite 1000) then false
      else true
    | _, _ => false

/-- The validity predicate as the claim words it: both coordinates are
well-formed numbers (finite, in particular not `NaN`) with absolute value at
most 1000. -/
def claimValidPosition : Option JSPosition → Bool
  | some ⟨.number (.finite qx), .number (.finite qz)⟩ => |qx| ≤ 1000 && |qz| ≤ 1000
  | _ => false

/-- The field writes `handlePlayerUpdate` performs on a stored player. -/
def applyUpdate (pos rot : Vec3) (vel : Vel2) (now : ℕ) (p : Player) : Player :=
  { p with position := pos, rotation := rot, velocity := vel, lastUpdate := now }

/-- The transition relation of the server: every store mutation the handlers,
loops and timer callbacks can perform.  The `update` step over-approximates
`handlePlayerUpdate` (arbitrary new position/rotation/velocity values in place
of the validated, clamped ones): that handler never writes health or ammo
fields, which is all the reachability invariant below reads.  The two timer
steps fire with the captured object equal to the current store entry under its
id (same id means same object in the single-threaded reference), or with the
entry gone. -/
inductive Step : GameState → GameState → Prop where
  | connect (now : ℕ) (id : String) (s : GameState) :
      Step s (initializePlayer now id s).1
  | update (pid : String) (pos rot : Vec3) (vel : Vel2) (now : ℕ) (s : GameState) :
      Step s { s with players := storeUpdate pid (applyUpdate pos rot vel now) s.players }
  | fire (now : ℕ) (pid : String) (data : FireData) (bulletId : String) (s : GameState) :
      Step s (handlePlayerFire now pid data bulletId s).1
  | reload (pid : String) (s : GameState) :
      Step s (handlePlayerReload pid s)
  | reloadDone (p : Player) (s : GameState) (h : mapGet p.id s.players = some p) :
      Step s (reloadTimerFire p s).1
  | reloadDoneOrphan (p : Player) (s : GameState) (h : mapGet p.id s.players = none) :
      Step s (reloadTimerFire p s).1
  | respawnDone (p : Player) (rx rz : ℚ) (s : GameState)
      (h : mapGet p.id s.players = some p) :
      Step s (respawnTimerFire p rx rz s).1
  | respawnDoneOrphan (p : Player) (rx rz : ℚ) (s : GameState)
      (h : mapGet p.id s.players = none) :
      Step s (respawnTimerFire p rx rz s).1
  | tick (now : ℕ) (s : GameState) :
      Step s (updateGameState now s).1
  | sweep (now : ℕ) (s : GameState) :
      Step s { s with bullets := cleanupBullets now s.bullets }
  | disconnect (pid : String) (s : GameState) :
      Step s (handleDisconnect pid s).1

/-- The empty world the server starts with. -/
def initState : GameState := { players := [], bullets := [] }

/-- A state the server can actually be in. -/
def Reachable (s : GameState) : Prop :=
  Relation.ReflTransGen Step initState s

/-- The per-player part of the reachability invariant. -/
def PlayerInv (p : Player) : Prop :=
  p.maxHealth = 100 ∧ 0 ≤ p.health ∧ p.health ≤ 100 ∧ 25 ∣ p.health

/-- The per-bullet part of the reachability invariant. -/
def BulletInv (b : Bullet) : Prop := b.damage = 25

/-- The reachability invariant. -/
def Inv (s : GameState) : Prop :=
  (∀ kv ∈ s.players, PlayerInv kv.2) ∧ (∀ kv ∈ s.bullets, BulletInv kv.2)

/-- The scan's eligibility predicate for one player entry: not the owning
shooter, alive, and within the hit radius. -/
def eligibleHit (b : Bullet) (kv : String × Player) : Prop :=
  ¬(b.playerId = kv.1 ∨ kv.2.health ≤ 0) ∧ hitTest b.position kv.2.position

/-- The fire gate of `handlePlayerFire`: alive, not reloading, ammo left, and
at least 100 ms since the last successful fire. -/
def fireAllowed (now : ℕ) (p : Player) : Prop :=
  0 < p.health ∧ p.isReloading = false ∧ 0 < p.ammo ∧ 100 ≤ now - p.lastFireTime

/-- An emission is health-safe when, if it is a `player-hit` notification, its
reported resulting health is nonnegative. -/
def EvOk (e : Emission) : Prop :=
  ∀ hid sid dmg nh bd, e.event = GameEvent.playerHit hid sid dmg nh bd → 0 ≤ nh

/-! Concrete fixtures used to evaluate the development on closed inputs. -/

/-- A well-formed fire payload. -/
def sampleFireData : FireData := ⟨⟨0, 1.8, 0⟩, ⟨1, 0, 0⟩⟩

/-- The fresh player `"a"` joined at time 0. -/
def samplePlayer : Player := initialPlayer 0 "a"

/-- The world right after `"a"` connected. -/
def sampleState : GameState := (initializePlayer 0 "a" initState).1

/-- Player `"a"` with an empty magazine (about to reload). -/
def reloadPlayer : Player := { initialPlayer 0 "a" with ammo := 0 }

/-- A world holding only `reloadPlayer`. -/
def reloadState : GameState := { players := [("a", reloadPlayer)], bullets := [] }

/-- Player `"a"` with one round left. -/
def lowAmmoPlayer : Player := { initialPlayer 0 "a" with ammo := 1 }

/-- A world holding only `lowAmmoPlayer`. -/
def lowAmmoState : GameState := { players := [("a", lowAmmoPlayer)], bullets := [] }

/-- Pairwise distinct bullet keys. -/
def bulletKey (i : ℕ) : String := String.mk (List.replicate i 'a')

/-- A store of 500 bullets, all created at time 0. -/
def manyBullets : Store Bullet :=
  (List.range 500).map (fun i => (bulletKey i, mkBullet 0 "p" sampleFireData (bulletKey i)))

/-- A world at the bullet capacity. -/
def fullState : GameState := { players := [("a", samplePlayer)], bullets := manyBullets }

/-- A fresh bullet id whose length (501) differs from every `bulletKey` length
(at most 499), so it collides with no stored key. -/
def newBulletId : String := String.mk (List.replicate 501 'b')

/-- A bullet owned by player `"s"`, sitting at `(0, 1.8, 0)`. -/
def scanBullet : Bullet := mkBullet 0 "s" sampleFireData "b1"

/-- A player 0.5 units from `scanBullet` (inside the 0.8 hit radius). -/
def nearPlayer : Player := { initialPlayer 0 "v" with position := ⟨0.5, 1.8, 0⟩ }

/-- A player 10 units from `scanBullet` (outside the hit radius). -/
def farPlayer : Player := { initialPlayer 0 "w" with position := ⟨10, 1.8, 0⟩ }

/-- A player store for the collision scan: the shooter first, then a far
player, then the near one. -/
def scanStore : Store Player :=
  [("s", initialPlayer 0 "s"), ("w", farPlayer), ("v", nearPlayer)]

/-- A bullet at the origin of `sampleFireData`, used to evaluate one motion
step. -/
def motionBullet : Bullet := mkBullet 0 "p" sampleFireData "b"

/-- A position whose `x` is `NaN` and whose `z` is `0`. -/
def nanPos : Option JSPosition :=
  some ⟨JSVal.number JSNum.nan, JSVal.number (JSNum.finite 0)⟩

/-! Store lemmas. -/

theorem mapGet_eq_none_iff {α : Type} (k : String) (l : Store α) :
    mapGet k l = none ↔ ∀ kv ∈ l, kv.1 ≠ k := by
  induction l with
  | nil => simp [mapGet]
  | cons kv rest ih =>
    by_cases h : kv.1 = k
    · simp [mapGet, h]
    · simp [mapGet, h, ih]

theorem mem_of_mapGet_eq_some {α : Type} {k : String} {v : α} :
    ∀ {l : Store α}, mapGet k l = some v → (k, v) ∈ l := by
  intro l
  induction l with
  | nil => intro h; simp [mapGet] at h
  | cons kv rest ih =>
    intro h
    by_cases hk : kv.1 = k
    · simp only [mapGet, if_pos hk, Option.some.injEq] at h
      have : kv = (k, v) := Prod.ext hk h
      rw [← this]
      exact List.mem_cons_self kv rest
    · simp only [mapGet, if_neg hk] at h
      exact List.mem_cons_of_mem _ (ih h)

theorem mapGet_isSome_of_mem {α : Type} {k : String} {v : α} :
    ∀ {l : Store α}, (k, v) ∈ l → ∃ w, mapGet k l = some w := by
  intro l
  induction l with
  | nil => intro h; simp at h
  | cons kv rest ih =>
    intro h
    by_cases hk : kv.1 = k
    · exact ⟨kv.2, by simp [mapGet, hk]⟩
    · rcases List.mem_cons.mp h with h | h
      · exact absurd (congrArg Prod.fst h).symm hk
      · simpa [mapGet, hk] using ih h

theorem mapGet_of_mem_nodup {α : Type} {k : String} {v : α} :
    ∀ {l : Store α}, (l.map Prod.fst).Nodup → (k, v) ∈ l → mapGet k l = some v := by
  intro l
  induction l with
  | nil => intro _ hm; simp at hm
  | cons kv rest ih =>
    intro hnd hm
    simp only [List.map_cons, List.nodup_cons] at hnd
    rcases List.mem_cons.mp hm with hm | hm
    · simp [mapGet, ← hm]
    · have hk : kv.1 ≠ k := by
        intro hk
        exact hnd.1 (hk ▸ (List.mem_map.mpr ⟨(k, v), hm, rfl⟩))
      simp [mapGet, hk, ih hnd.2 hm]

theorem mapGet_mapSet_self {α : Type} (k : String) (v : α) (l : Store α) :
    mapGet k (mapSet k v l) = some v := by
  induction l with
  | nil => simp [mapSet, mapGet]
  | cons kv rest ih =>
    by_cases h : kv.1 = k
    · simp [mapSet, h, mapGet]
    · simp [mapSet, h, mapGet, ih]

theorem mapGet_mapSet_ne {α : Type} {k k' : String} (h : k' ≠ k) (v : α) (l : Store α) :
    mapGet k' (mapSet k v l) = mapGet k' l := by
  induction l with
  | nil => simp [mapSet, mapGet, Ne.symm h]
  | cons kv rest ih =>
    by_cases hk : kv.1 = k
    · have h1 : k ≠ k' := Ne.symm h
      have h2 : kv.1 ≠ k' := hk ▸ h1
      simp [mapSet, hk, mapGet, h1, h2]
    · simp only [mapSet, if_neg hk, mapGet]
      by_cases hk' : kv.1 = k'
      · rw [if_pos hk', if_pos hk']
      · rw [if_neg hk', if_neg hk', ih]

theorem mapSet_of_fresh {α : Type} {k : String} (v : α) :
    ∀ {l : Store α}, (∀ kv ∈ l, kv.1 ≠ k) → mapSet k v l = l ++ [(k, v)] := by
  intro l
  induction l with
  | nil => intro _; simp [mapSet]
  | cons kv rest ih =>
    intro h
    have hk : kv.1 ≠ k := h kv (List.mem_cons_self kv rest)
    simp only [mapSet, if_neg hk, List.cons_append, List.cons.injEq, true_and]
    exact ih (fun x hx => h x (List.mem_cons_of_mem _ hx))

theorem mapGet_mapDelete {α : Type} (k k' : String) (l : Store α) :
    mapGet k (mapDelete k' l) = if k = k' then none else mapGet k l := by
  induction l with
  | nil => simp [mapDelete, mapGet]
  | cons kv rest ih =>
    by_cases hd : kv.1 = k'
    · by_cases hk : k = k'
      · subst hk
        simp [mapDelete, hd, ih]
      · have h1 : kv.1 ≠ k := fun hh => hk (hh.symm.trans hd)
        have h2 : ¬(k' = k) := fun hh => hk hh.symm
        simp [mapDelete, hd, ih, hk, mapGet, h1, h2]
    · by_cases hk : kv.1 = k
      · have h1 : ¬(k = k') := fun hh => hd (hk.trans hh)
        simp [mapDelete, hd, mapGet, hk, h1]
      · simp [mapDelete, hd, mapGet, hk, ih]

theorem mapDelete_sublist {α : Type} (k : String) (l : Store α) :
    (mapDelete k l).Sublist l := by
  induction l with
  | nil => simp [mapDelete]
  | cons kv rest ih =>
    by_cases h : kv.1 = k
    · simp only [mapDelete, if_pos h]
      exact ih.cons kv
    · simp only [mapDelete, if_neg h]
      exact ih.cons₂ kv

theorem mapDelete_of_absent {α : Type} {k : String} :
    ∀ {l : Store α}, (∀ kv ∈ l, kv.1 ≠ k) → mapDelete k l = l := by
  intro l
  induction l with
  | nil => intro _; rfl
  | cons kv rest ih =>
    intro h
    have hk : kv.1 ≠ k := h kv (List.mem_cons_self kv rest)
    simp only [mapDelete, if_neg hk, List.cons.injEq, true_and]
    exact ih (fun x hx => h x (List.mem_cons_of_mem _ hx))

theorem length_mapDelete_of_mem_nodup {α : Type} {k : String} {v : α} :
    ∀ {l : Store α}, (l.map Prod.fst).Nodup → (k, v) ∈ l →
      (mapDelete k l).length + 1 = l.length := by
  intro l
  induction l with
  | nil => intro _ hm; simp at hm
  | cons kv rest ih =>
    intro hnd hm
    simp only [List.map_cons, List.nodup_cons] at hnd
    by_cases hk : kv.1 = k
    · have habs : ∀ x ∈ rest, x.1 ≠ k := by
        intro x hx hxk
        exact hnd.1 ((hk.trans hxk.symm) ▸ (List.mem_map.mpr ⟨x, hx, rfl⟩))
      simp [mapDelete, hk, mapDelete_of_absent habs]
    · rcases List.mem_cons.mp hm with hm | hm
      · exact absurd (congrArg Prod.fst hm).symm hk
      · simp only [mapDelete, if_neg hk, List.length_cons]
        rw [← ih hnd.2 hm]

theorem mapGet_storeUpdate {α : Type} (k k' : String) (f : α → α) (l : Store α) :
    mapGet k (storeUpdate k' f l) =
      if k' = k then (mapGet k l).map f else mapGet k l := by
  induction l with
  | nil => simp [storeUpdate, mapGet]
  | cons kv rest ih =>
    by_cases hu : kv.1 = k'
    · by_cases hk : k' = k
      · have h2 : kv.1 = k := hu.trans hk
        subst hk
        simp [storeUpdate, hu, mapGet, h2, ih]
      · have h2 : kv.1 ≠ k := fun hh => hk (hu.symm.trans hh)
        simp [storeUpdate, hu, mapGet, h2, hk, ih]
    · by_cases hk : kv.1 = k
      · have h1 : ¬(k' = k) := fun hh => hu (hk.trans hh.symm)
        have h2 : ¬(k = k') := fun hh => h1 hh.symm
        simp [storeUpdate, hu, mapGet, hk, h1, h2]
      · simp [storeUpdate, hu, mapGet, hk, ih]

theorem storeUpdate_of_absent {α : Type} {k : String} (f : α → α) :
    ∀ {l : Store α}, (∀ kv ∈ l, kv.1 ≠ k) → storeUpdate k f l = l := by
  intro l
  induction l with
  | nil => intro _; rfl
  | cons kv rest ih =>
    intro h
    have hk : kv.1 ≠ k := h kv (List.mem_cons_self kv rest)
    simp only [storeUpdate, if_neg hk, List.cons.injEq, true_and]
    exact ih (fun x hx => h x (List.mem_cons_of_mem _ hx))

theorem mem_storeUpdate {α : Type} {k : String} {f : α → α} {x : String × α} :
    ∀ {l : Store α}, x ∈ storeUpdate k f l → ∃ y ∈ l, x = y ∨ x = (y.1, f y.2) := by
  intro l
  induction l with
  | nil => intro hx; simp [storeUpdate] at hx
  | cons kv rest ih =>
    intro hx
    by_cases h : kv.1 = k
    · simp only [storeUpdate, if_pos h, List.mem_cons] at hx
      rcases hx with hx | hx
      · exact ⟨kv, List.mem_cons_self kv rest, Or.inr hx⟩
      · obtain ⟨y, hy, hxy⟩ := ih hx
        exact ⟨y, List.mem_cons_of_mem _ hy, hxy⟩
    · simp only [storeUpdate, if_neg h, List.mem_cons] at hx
      rcases hx with hx | hx
      · exact ⟨kv, List.mem_cons_self kv rest, Or.inl hx⟩
      · obtain ⟨y, hy, hxy⟩ := ih hx
        exact ⟨y, List.mem_cons_of_mem _ hy, hxy⟩

theorem mem_mapSet {α : Type} {k : String} {v : α} {x : String × α} :
    ∀ {l : Store α}, x ∈ mapSet k v l → x ∈ l ∨ x = (k, v) := by
  intro l
  induction l with
  | nil => intro hx; simpa [mapSet] using hx
  | cons kv rest ih =>
    intro hx
    by_cases h : kv.1 = k
    · simp only [mapSet, if_pos h, List.mem_cons] at hx
      rcases hx with hx | hx
      · exact Or.inr hx
      · exact Or.inl (List.mem_cons_of_mem _ hx)
    · simp only [mapSet, if_neg h, List.mem_cons] at hx
      rcases hx with hx | hx
      · exact Or.inl (hx ▸ List.mem_cons_self kv rest)
      · rcases ih hx with hh | hh
        · exact Or.inl (List.mem_cons_of_mem _ hh)
        · exact Or.inr hh

/-! Lemmas about the oldest-bullet selection. -/

theorem oldestEntry_eq_none_iff (l : Store Bullet) : oldestEntry l = none ↔ l = [] := by
  cases l with
  | nil => simp [oldestEntry]
  | cons e rest =>
    simp only [oldestEntry]
    cases oldestEntry rest with
    | none => simp
    | some o =>
      by_cases h : o.2.createdAt < e.2.createdAt <;> simp [h]

theorem oldestEntry_mem : ∀ {l : Store Bullet} {e}, oldestEntry l = some e → e ∈ l := by
  intro l
  induction l with
  | nil => intro e h; simp [oldestEntry] at h
  | cons a rest ih =>
    intro e h
    cases ho : oldestEntry rest with
    | none =>
      simp only [oldestEntry, ho, Option.some.injEq] at h
      rw [← h]
      exact List.mem_cons_self a rest
    | some o =>
      simp only [oldestEntry, ho] at h
      by_cases hc : o.2.createdAt < a.2.createdAt
      · rw [if_pos hc] at h
        simp only [Option.some.injEq] at h
        exact List.mem_cons_of_mem _ (h ▸ ih ho)
      · rw [if_neg hc] at h
        simp only [Option.some.injEq] at h
        rw [← h]
        exact List.mem_cons_self a rest

theorem oldestEntry_min : ∀ {l : Store Bullet} {e}, oldestEntry l = some e →
    ∀ x ∈ l, e.2.createdAt ≤ x.2.createdAt := by
  intro l
  induction l with
  | nil => intro e h; simp [oldestEntry] at h
  | cons a rest ih =>
    intro e h x hx
    cases ho : oldestEntry rest with
    | none =>
      have hrest : rest = [] := (oldestEntry_eq_none_iff rest).mp ho
      subst hrest
      simp only [oldestEntry, Option.some.injEq] at h
      rcases List.mem_cons.mp hx with hx | hx
      · rw [← h, hx]
      · simp at hx
    | some o =>
      simp only [oldestEntry, ho] at h
      by_cases hc : o.2.createdAt < a.2.createdAt
      · rw [if_pos hc] at h
        simp only [Option.some.injEq] at h
        subst h
        rcases List.mem_cons.mp hx with hx | hx
        · exact hx ▸ le_of_lt hc
        · exact ih ho x hx
      · rw [if_neg hc] at h
        simp only [Option.some.injEq] at h
        subst h
        rcases List.mem_cons.mp hx with hx | hx
        · exact hx ▸ le_refl _
        · exact le_trans (not_lt.mp hc) (ih ho x hx)

theorem oldestEntry_first : ∀ {l₁ : Store Bullet} {e : String × Bullet} {l₂ : Store Bullet},
    oldestEntry (l₁ ++ e :: l₂) = some e → e ∉ l₁ →
    ∀ x ∈ l₁, e.2.createdAt < x.2.createdAt := by
  intro l₁
  induction l₁ with
  | nil => intro e l₂ _ _ x hx; simp at hx
  | cons a rest ih =>
    intro e l₂ h hne x hx
    cases ho : oldestEntry (rest ++ e :: l₂) with
    | none =>
      exact absurd ((oldestEntry_eq_none_iff _).mp ho) (by simp)
    | some o =>
      simp only [List.cons_append, oldestEntry, List.append_eq, ho] at h
      by_cases hc : o.2.createdAt < a.2.createdAt
      · rw [if_pos hc] at h
        simp only [Option.some.injEq] at h
        subst h
        rcases List.mem_cons.mp hx with hx | hx
        · exact hx ▸ hc
        · exact ih ho (fun hmem => hne (List.mem_cons_of_mem _ hmem)) x hx
      · rw [if_neg hc] at h
        simp only [Option.some.injEq] at h
        exact absurd (h ▸ List.mem_cons_self a rest) hne

/-! Sublist lemmas: every sweep only removes entries. -/

theorem removePlayerBullets_sublist (pid : String) (l : Store Bullet) :
    (removePlayerBullets pid l).Sublist l := by
  induction l with
  | nil => simp [removePlayerBullets]
  | cons kv rest ih =>
    by_cases h : kv.2.playerId = pid
    · simp only [removePlayerBullets, if_pos h]
      exact ih.cons kv
    · simp only [removePlayerBullets, if_neg h]
      exact ih.cons₂ kv

theorem cleanupBullets_sublist (now : ℕ) (l : Store Bullet) :
    (cleanupBullets now l).Sublist l := by
  induction l with
  | nil => simp [cleanupBullets]
  | cons kv rest ih =>
    by_cases h : now - kv.2.createdAt > kv.2.lifetime
    · simp only [cleanupBullets, if_pos h]
      exact ih.cons kv
    · simp only [cleanupBullets, if_neg h]
      exact ih.cons₂ kv

theorem cleanupInactivePlayers_sublist (now : ℕ) (l : Store Player) :
    (cleanupInactivePlayers now l).1.Sublist l := by
  induction l with
  | nil => simp [cleanupInactivePlayers]
  | cons kv rest ih =>
    by_cases h : now - kv.2.lastUpdate > 60000
    · simp only [cleanupInactivePlayers, if_pos h]
      exact ih.cons kv
    · simp only [cleanupInactivePlayers, if_neg h]
      exact ih.cons₂ kv

theorem capBullets_sublist (l : Store Bullet) : (capBullets l).Sublist l := by
  unfold capBullets
  by_cases h : l.length > MAX_BULLETS
  · rw [if_pos h]
    cases ho : oldestEntry l with
    | none => exact List.Sublist.refl l
    | some o => exact mapDelete_sublist o.1 l
  · rw [if_neg h]

theorem checkBulletCollisions_bullets_sublist :
    ∀ (bs : Store Bullet) (ps : Store Player),
      (checkBulletCollisions bs ps).1.Sublist bs := by
  intro bs
  induction bs with
  | nil => intro ps; simp [checkBulletCollisions]
  | cons hd rest ih =>
    intro ps
    obtain ⟨bid, b⟩ := hd
    cases hscan : scanPlayers b ps with
    | some kv =>
      simp only [checkBulletCollisions, hscan]
      exact ((ih _).trans (List.sublist_cons_self (bid, b) rest))
    | none =>
      simp only [checkBulletCollisions, hscan]
      exact (ih ps).cons₂ (bid, b)

/-! Lemmas about the collision scan. -/

theorem scanPlayers_eq_some {b : Bullet} :
    ∀ {ps : Store Player} {kv}, scanPlayers b ps = some kv →
      ∃ l₁ l₂, ps = l₁ ++ kv :: l₂ ∧ eligibleHit b kv ∧ ∀ x ∈ l₁, ¬eligibleHit b x := by
  intro ps
  induction ps with
  | nil => intro kv h; simp [scanPlayers] at h
  | cons a rest ih =>
    intro kv h
    by_cases hskip : b.playerId = a.1 ∨ a.2.health ≤ 0
    · rw [scanPlayers, if_pos hskip] at h
      obtain ⟨l₁, l₂, hps, helig, hbefore⟩ := ih h
      refine ⟨a :: l₁, l₂, by rw [hps, List.cons_append], helig, ?_⟩
      intro x hx
      rcases List.mem_cons.mp hx with hx | hx
      · exact hx ▸ fun he => he.1 hskip
      · exact hbefore x hx
    · rw [scanPlayers, if_neg hskip] at h
      by_cases hhit : hitTest b.position a.2.position
      · rw [if_pos hhit] at h
        simp only [Option.some.injEq] at h
        exact ⟨[], rest, by rw [← h, List.nil_append], h ▸ ⟨hskip, hhit⟩, by simp⟩
      · rw [if_neg hhit] at h
        obtain ⟨l₁, l₂, hps, helig, hbefore⟩ := ih h
        refine ⟨a :: l₁, l₂, by rw [hps, List.cons_append], helig, ?_⟩
        intro x hx
        rcases List.mem_cons.mp hx with hx | hx
        · exact hx ▸ fun he => hhit he.2
        · exact hbefore x hx

theorem scanPlayers_eq_none {b : Bullet} :
    ∀ {ps : Store Player}, scanPlayers b ps = none → ∀ x ∈ ps, ¬eligibleHit b x := by
  intro ps
  induction ps with
  | nil => intro _ x hx; simp at hx
  | cons a rest ih =>
    intro h x hx
    by_cases hskip : b.playerId = a.1 ∨ a.2.health ≤ 0
    · rw [scanPlayers, if_pos hskip] at h
      rcases List.mem_cons.mp hx with hx | hx
      · exact hx ▸ fun he => he.1 hskip
      · exact ih h x hx
    · rw [scanPlayers, if_neg hskip] at h
      by_cases hhit : hitTest b.position a.2.position
      · rw [if_pos hhit] at h
        simp at h
      · rw [if_neg hhit] at h
        rcases List.mem_cons.mp hx with hx | hx
        · exact hx ▸ fun he => hhit he.2
        · exact ih h x hx

theorem eligibleHit_facts {b : Bullet} {kv : String × Player} (h : eligibleHit b kv) :
    b.playerId ≠ kv.1 ∧ 0 < kv.2.health := by
  rcases h with ⟨hn, _⟩
  push_neg at hn
  exact ⟨hn.1, hn.2⟩

/-! Lemmas about the bullet updater and the disconnect sweep. -/

theorem mapGet_updateBullets {now : ℕ} :
    ∀ {bs : Store Bullet} {bid : String} {b : Bullet},
      (bs.map Prod.fst).Nodup → (bid, b) ∈ bs → now - b.createdAt ≤ b.lifetime →
      mapGet bid (updateBullets now bs).1 = some (moveBullet b) := by
  intro bs
  induction bs with
  | nil => intro bid b _ hm _; simp at hm
  | cons kv rest ih =>
    intro bid b hnd hm hlive
    obtain ⟨k, a⟩ := kv
    simp only [List.map_cons, List.nodup_cons] at hnd
    rcases List.mem_cons.mp hm with hm | hm
    · have hk : k = bid := (congrArg Prod.fst hm).symm
      have ha : a = b := (congrArg Prod.snd hm).symm
      subst hk
      subst ha
      have hnotexp : ¬(now - (moveBullet a).createdAt > (moveBullet a).lifetime) := by
        simp only [moveBullet]
        exact not_lt.mpr hlive
      simp only [updateBullets, if_neg hnotexp, mapGet]
      simp
    · have hk : k ≠ bid := by
        intro hh
        exact hnd.1 (hh ▸ List.mem_map.mpr ⟨(bid, b), hm, rfl⟩)
      by_cases hexp : now - (moveBullet a).createdAt > (moveBullet a).lifetime
      · simp only [updateBullets, if_pos hexp]
        exact ih hnd.2 hm hlive
      · simp only [updateBullets, if_neg hexp, mapGet, if_neg hk]
        exact ih hnd.2 hm hlive

theorem mapGet_removePlayerBullets {pid : String} :
    ∀ {l : Store Bullet}, (l.map Prod.fst).Nodup → ∀ {k : String} {b : Bullet},
      (mapGet k (removePlayerBullets pid l) = some b ↔
        (mapGet k l = some b ∧ b.playerId ≠ pid)) := by
  intro l
  induction l with
  | nil => intro _ k b; simp [removePlayerBullets, mapGet]
  | cons kv rest ih =>
    intro hnd k b
    simp only [List.map_cons, List.nodup_cons] at hnd
    by_cases ho : kv.2.playerId = pid
    · simp only [removePlayerBullets, if_pos ho]
      by_cases hk : kv.1 = k
      · have hnone : mapGet k (removePlayerBullets pid rest) = none := by
          rw [mapGet_eq_none_iff]
          intro x hx hxk
          exact hnd.1 ((hk.trans hxk.symm) ▸ List.mem_map.mpr
            ⟨x, (removePlayerBullets_sublist pid rest).mem hx, rfl⟩)
        rw [hnone]
        simp only [mapGet, if_pos hk]
        constructor
        · intro hh
          exact Option.noConfusion hh
        · rintro ⟨hh, hb⟩
          have hb2 : kv.2 = b := by injection hh
          rw [← hb2] at hb
          exact absurd ho hb
      · rw [ih hnd.2]
        simp [mapGet, if_neg hk]
    · simp only [removePlayerBullets, if_neg ho]
      by_cases hk : kv.1 = k
      · simp only [mapGet, if_pos hk]
        constructor
        · intro hh
          refine ⟨hh, ?_⟩
          have : b = kv.2 := (Option.some.injEq ..).mp hh.symm
          rw [this]
          exact ho
        · intro hh; exact hh.1
      · simp only [mapGet, if_neg hk]
        exact ih hnd.2

/-! ### C1 — timers firing after the target player was deleted -/

/-- C1, counterexample: with the player deleted from the store, the respawn
timer still publishes a `player-respawned` broadcast (the claim says such a
timer publishes nothing). -/
theorem timer_deleted_cex :
    mapGet (initialPlayer 0 "gone").id initState.players = none ∧
    (respawnTimerFire (initialPlayer 0 "gone") 0 0 initState).2 ≠ [] := by
  refine ⟨rfl, ?_⟩
  simp [respawnTimerFire]

/-- C1, amended: the timer callbacks perform no fresh lookup — they act on the
captured object.  When the player has been deleted by the time they fire, the
world state is indeed left unchanged, but the reload timer still emits
`reload-complete` to the departed player's room and the respawn timer still
broadcasts `player-respawned` to all clients. -/
theorem timer_deleted_amended (p : Player) (s : GameState)
    (h : mapGet p.id s.players = none) (rx rz : ℚ) :
    (reloadTimerFire p s).1 = s ∧
    (reloadTimerFire p s).2 =
      [⟨Target.room p.id,
        GameEvent.reloadComplete (completeReload p).ammo (completeReload p).totalAmmo⟩] ∧
    (respawnTimerFire p rx rz s).1 = s ∧
    (respawnTimerFire p rx rz s).2 =
      [⟨Target.all,
        GameEvent.playerRespawned p.id (respawnPlayer rx rz p).position
          (respawnPlayer rx rz p).health⟩] := by
  have habs := (mapGet_eq_none_iff p.id s.players).mp h
  refine ⟨?_, rfl, ?_, rfl⟩
  · show ({ s with players := storeUpdate p.id (fun _ => completeReload p) s.players } = s)
    rw [storeUpdate_of_absent _ habs]
  · show ({ s with players := storeUpdate p.id (fun _ => respawnPlayer rx rz p) s.players } = s)
    rw [storeUpdate_of_absent _ habs]

/-- C1 witness: the amended statement evaluated with a concrete orphan player
and the empty world. -/
theorem timer_deleted_amended_witness :
    (reloadTimerFire (initialPlayer 0 "x") initState).1 = initState ∧
    (reloadTimerFire (initialPlayer 0 "x") initState).2 =
      [⟨Target.room (initialPlayer 0 "x").id,
        GameEvent.reloadComplete (completeReload (initialPlayer 0 "x")).ammo
          (completeReload (initialPlayer 0 "x")).totalAmmo⟩] ∧
    (respawnTimerFire (initialPlayer 0 "x") 0 0 initState).1 = initState ∧
    (respawnTimerFire (initialPlayer 0 "x") 0 0 initState).2 =
      [⟨Target.all,
        GameEvent.playerRespawned (initialPlayer 0 "x").id
          (respawnPlayer 0 0 (initialPlayer 0 "x")).position
          (respawnPlayer 0 0 (initialPlayer 0 "x")).health⟩] :=
  timer_deleted_amended (initialPlayer 0 "x") initState rfl 0 0

/-! ### C3 — projectile motion per tick -/

/-- C3, counterexample: the code advances a unit-direction, speed-50 bullet by
`50 * 0.016 = 0.8` per tick, not by `50 * (1/60) = 5/6` as the claim's
`fixedDeltaTime = 1/60 s` would give. -/
theorem bullet_motion_cex :
    (moveBullet motionBullet).position.x = 4 / 5 ∧
    motionBullet.position.x + motionBullet.direction.x * motionBullet.speed * (1 / 60) ≠
      4 / 5 := by
  constructor
  · norm_num [moveBullet, motionBullet, mkBullet, sampleFireData, deltaTime]
  · norm_num [motionBullet, mkBullet, sampleFireData]

/-- C3, amended: each tick every surviving projectile advances by exactly
`direction × speed × deltaTime` with `deltaTime = 0.016` (not `1/60`), a
constant independent of the tick's wall-clock time `now`. -/
theorem bullet_motion_amended (now : ℕ) (bs : Store Bullet) (bid : String) (b : Bullet)
    (hnd : (bs.map Prod.fst).Nodup) (hmem : (bid, b) ∈ bs)
    (hlive : now - b.createdAt ≤ b.lifetime) :
    mapGet bid (updateBullets now bs).1 = some (moveBullet b) ∧
    (moveBullet b).position.x = b.position.x + b.direction.x * b.speed * (16 / 1000) ∧
    (moveBullet b).position.y = b.position.y + b.direction.y * b.speed * (16 / 1000) ∧
    (moveBullet b).position.z = b.position.z + b.direction.z * b.speed * (16 / 1000) := by
  refine ⟨mapGet_updateBullets hnd hmem hlive, ?_, ?_, ?_⟩ <;>
    norm_num [moveBullet, deltaTime]

/-- C3 witness: the amended statement evaluated on a singleton bullet store. -/
theorem bullet_motion_amended_witness :
    mapGet "b" (updateBullets 16 [("b", motionBullet)]).1 = some (moveBullet motionBullet) ∧
    (moveBullet motionBullet).position.x =
      motionBullet.position.x + motionBullet.direction.x * motionBullet.speed * (16 / 1000) ∧
    (moveBullet motionBullet).position.y =
      motionBullet.position.y + motionBullet.direction.y * motionBullet.speed * (16 / 1000) ∧
    (moveBullet motionBullet).position.z =
      motionBullet.position.z + motionBullet.direction.z * motionBullet.speed * (16 / 1000) :=
  bullet_motion_amended 16 [("b", motionBullet)] "b" motionBullet (by simp)
    (by simp) (by norm_num [motionBullet, mkBullet])

/-! ### C4 — velocity clamping -/

/-- C4: when the horizontal speed `√(vx²+vz²)` exceeds 0.5 the clamp rescales
both components by `0.5/speed`, giving a vector of speed exactly 0.5 with the
same `vx : vz` ratio; any velocity with speed at most 0.5 passes through
unchanged. -/
theorem clampVelocity_spec (vx vz : ℝ) :
    (0.5 < Real.sqrt (vx ^ 2 + vz ^ 2) →
      Real.sqrt ((clampVelocity vx vz).1 ^ 2 + (clampVelocity vx vz).2 ^ 2) = 0.5 ∧
      (clampVelocity vx vz).1 * vz = (clampVelocity vx vz).2 * vx) ∧
    (Real.sqrt (vx ^ 2 + vz ^ 2) ≤ 0.5 → clampVelocity vx vz = (vx, vz)) := by
  constructor
  · intro h
    have hs : 0 < Real.sqrt (vx ^ 2 + vz ^ 2) := lt_trans (by norm_num) h
    have hne : Real.sqrt (vx ^ 2 + vz ^ 2) ≠ 0 := ne_of_gt hs
    have hp : clampVelocity vx vz =
        (vx * (0.5 / Real.sqrt (vx ^ 2 + vz ^ 2)),
         vz * (0.5 / Real.sqrt (vx ^ 2 + vz ^ 2))) := by
      simp only [clampVelocity]
      rw [if_pos h]
    constructor
    · rw [hp]
      have hsq : Real.sqrt (vx ^ 2 + vz ^ 2) ^ 2 = vx ^ 2 + vz ^ 2 :=
        Real.sq_sqrt (by positivity)
      have hsum :
          (vx * (0.5 / Real.sqrt (vx ^ 2 + vz ^ 2))) ^ 2 +
            (vz * (0.5 / Real.sqrt (vx ^ 2 + vz ^ 2))) ^ 2 = (0.5 : ℝ) ^ 2 := by
        have step : (vx * (0.5 / Real.sqrt (vx ^ 2 + vz ^ 2))) ^ 2 +
            (vz * (0.5 / Real.sqrt (vx ^ 2 + vz ^ 2))) ^ 2 =
            (vx ^ 2 + vz ^ 2) * (0.5 / Real.sqrt (vx ^ 2 + vz ^ 2)) ^ 2 := by ring
        have step2 : (vx ^ 2 + vz ^ 2) * (0.5 / Real.sqrt (vx ^ 2 + vz ^ 2)) ^ 2 =
            (Real.sqrt (vx ^ 2 + vz ^ 2) * (0.5 / Real.sqrt (vx ^ 2 + vz ^ 2))) ^ 2 := by
          rw [mul_pow, hsq]
        rw [step, step2,
          mul_comm (Real.sqrt (vx ^ 2 + vz ^ 2)) ((0.5 : ℝ) / Real.sqrt (vx ^ 2 + vz ^ 2)),
          div_mul_cancel₀ _ hne]
      rw [hsum, Real.sqrt_sq (by norm_num : (0 : ℝ) ≤ 0.5)]
    · rw [hp]
      ring
  · intro h
    simp only [clampVelocity]
    rw [if_neg (not_lt.mpr h)]

/-- C4 witness: the clamp at `(3, 4)` (speed 5) lands on speed 0.5 with the
3:4 ratio kept, and `(0.3, 0.4)` (speed 0.5) passes through unchanged. -/
theorem clampVelocity_spec_witness :
    (Real.sqrt ((clampVelocity 3 4).1 ^ 2 + (clampVelocity 3 4).2 ^ 2) = 0.5 ∧
      (clampVelocity 3 4).1 * 4 = (clampVelocity 3 4).2 * 3) ∧
    clampVelocity 0.3 0.4 = (0.3, 0.4) := by
  constructor
  · refine (clampVelocity_spec 3 4).1 ?_
    rw [show ((3 : ℝ) ^ 2 + 4 ^ 2) = 5 ^ 2 by norm_num,
      Real.sqrt_sq (by norm_num : (0 : ℝ) ≤ 5)]
    norm_num
  · refine (clampVelocity_spec 0.3 0.4).2 ?_
    rw [show ((0.3 : ℝ) ^ 2 + 0.4 ^ 2) = 0.5 ^ 2 by norm_num,
      Real.sqrt_sq (by norm_num : (0 : ℝ) ≤ 0.5)]

/-! ### C5 — position validation -/

/-- C5, counterexample: a position whose `x` is `NaN` passes `isValidPosition`
(`typeof NaN` is `"number"` and `Math.abs(NaN) > 1000` compares false), while
the claim requires every NaN coordinate to fail. -/
theorem validate_nan_cex :
    isValidPosition nanPos = true ∧ claimValidPosition nanPos = false := by
  constructor <;> rfl

/-- C5, amended: validation returns true iff both coordinates have JS type
number and each is either `NaN` or finite with absolute value at most 1000:
finite in-bounds positions pass, finite out-of-bounds, infinite, missing and
non-numeric coordinates fail, but `NaN` coordinates pass. -/
theorem isValidPosition_amended (pos : Option JSPosition) :
    isValidPosition pos = true ↔
      ∃ nx nz, pos = some ⟨JSVal.number nx, JSVal.number nz⟩ ∧
        (nx = JSNum.nan ∨ ∃ qx, nx = JSNum.finite qx ∧ |qx| ≤ 1000) ∧
        (nz = JSNum.nan ∨ ∃ qz, nz = JSNum.finite qz ∧ |qz| ≤ 1000) := by
  cases pos with
  | none => simp [isValidPosition]
  | some p =>
    obtain ⟨px, pz⟩ := p
    cases px with
    | nonNumber => simp [isValidPosition]
    | number nx =>
      cases pz with
      | nonNumber => simp [isValidPosition]
      | number nz =>
        have hnum : ∀ n : JSNum, (jsGt (jsAbs n) (JSNum.finite 1000) = false) ↔
            (n = JSNum.nan ∨ ∃ q, n = JSNum.finite q ∧ |q| ≤ 1000) := by
          intro n
          cases n with
          | finite q => simp [jsAbs, jsGt, not_lt]
          | nan => simp [jsAbs, jsGt]
          | posInf => simp [jsAbs, jsGt]
          | negInf => simp [jsAbs, jsGt]
        have hval : isValidPosition (some ⟨JSVal.number nx, JSVal.number nz⟩) = true ↔
            (jsGt (jsAbs nx) (JSNum.finite 1000) = false ∧
             jsGt (jsAbs nz) (JSNum.finite 1000) = false) := by
          simp only [isValidPosition]
          by_cases hc : (jsGt (jsAbs nx) (JSNum.finite 1000) ||
              jsGt (jsAbs nz) (JSNum.finite 1000)) = true
          · rw [if_pos hc]
            simp only [Bool.or_eq_true] at hc
            constructor
            · intro hh
              exact absurd hh (by simp)
            · rintro ⟨h1, h2⟩
              rcases hc with hc | hc
              · rw [h1] at hc
                exact absurd hc (by simp)
              · rw [h2] at hc
                exact absurd hc (by simp)
          · rw [if_neg hc]
            simp only [Bool.or_eq_true, not_or, Bool.not_eq_true] at hc
            simp [hc.1, hc.2]
        rw [hval, hnum nx, hnum nz]
        constructor
        · rintro ⟨h1, h2⟩
          exact ⟨nx, nz, rfl, h1, h2⟩
        · rintro ⟨nx', nz', heq, h1, h2⟩
          simp only [Option.some.injEq, JSPosition.mk.injEq, JSVal.number.injEq] at heq
          obtain ⟨hx, hz⟩ := heq
          subst hx
          subst hz
          exact ⟨h1, h2⟩

/-! ### C10 — disconnect removes the player and exactly their bullets -/

/-- C10: disconnecting a present player deletes that player's record and every
projectile they own, and nothing else: any other key still maps to the same
player, and a bullet survives exactly when its owner is not the departing
player. -/
theorem disconnect_effect (pid : String) (s : GameState) (p : Player)
    (hp : mapGet pid s.players = some p)
    (hbk : (s.bullets.map Prod.fst).Nodup) :
    (∀ k v, mapGet k (handleDisconnect pid s).1.players = some v ↔
      (mapGet k s.players = some v ∧ k ≠ pid)) ∧
    (∀ k b, mapGet k (handleDisconnect pid s).1.bullets = some b ↔
      (mapGet k s.bullets = some b ∧ b.playerId ≠ pid)) := by
  have hstate : (handleDisconnect pid s).1 =
      { players := mapDelete pid s.players,
        bullets := removePlayerBullets pid s.bullets } := by
    simp only [handleDisconnect, hp]
  rw [hstate]
  constructor
  · intro k v
    rw [mapGet_mapDelete]
    by_cases hk : k = pid
    · simp [hk]
    · simp [hk]
  · intro k b
    exact mapGet_removePlayerBullets hbk

/-- C10 witness: the effect of `"a"` disconnecting from a two-player world
where each player owns one bullet. -/
theorem disconnect_effect_witness :
    (∀ k v, mapGet k (handleDisconnect "a"
        { players := [("a", initialPlayer 0 "a"), ("c", initialPlayer 0 "c")],
          bullets := [("b1", mkBullet 0 "a" sampleFireData "b1"),
                      ("b2", mkBullet 0 "c" sampleFireData "b2")] }).1.players = some v ↔
      (mapGet k [("a", initialPlayer 0 "a"), ("c", initialPlayer 0 "c")] = some v ∧ k ≠ "a")) ∧
    (∀ k b, mapGet k (handleDisconnect "a"
        { players := [("a", initialPlayer 0 "a"), ("c", initialPlayer 0 "c")],
          bullets := [("b1", mkBullet 0 "a" sampleFireData "b1"),
                      ("b2", mkBullet 0 "c" sampleFireData "b2")] }).1.bullets = some b ↔
      (mapGet k [("b1", mkBullet 0 "a" sampleFireData "b1"),
                 ("b2", mkBullet 0 "c" sampleFireData "b2")] = some b ∧ b.playerId ≠ "a")) :=
  disconnect_effect "a" _ (initialPlayer 0 "a") (by rfl) (by simp)

/-! Unfolding lemmas for `handlePlayerFire`. -/

theorem handlePlayerFire_no_player {now : ℕ} {pid : String} {data : FireData}
    {bid : String} {s : GameState} (h : mapGet pid s.players = none) :
    handlePlayerFire now pid data bid s = (s, []) := by
  simp [handlePlayerFire, h]

theorem handlePlayerFire_reject {now : ℕ} {pid : String} {data : FireData}
    {bid : String} {s : GameState} {p : Player} (h : mapGet pid s.players = some p)
    (hna : ¬fireAllowed now p) :
    handlePlayerFire now pid data bid s = (s, []) := by
  simp only [handlePlayerFire, h]
  by_cases h1 : p.health ≤ 0 ∨ p.isReloading = true ∨ p.ammo ≤ 0
  · rw [if_pos h1]
  · rw [if_neg h1]
    push_neg at h1
    have h2 : now - p.lastFireTime < 100 := by
      by_contra h2
      exact hna ⟨h1.1, Bool.eq_false_iff.mpr h1.2.1, h1.2.2, not_lt.mp h2⟩
    rw [if_pos h2]

theorem handlePlayerFire_success {now : ℕ} {pid : String} {data : FireData}
    {bid : String} {s : GameState} {p : Player} (h : mapGet pid s.players = some p)
    (ha : fireAllowed now p) :
    handlePlayerFire now pid data bid s =
      ({ players := mapSet pid (firedPlayer now p) s.players,
         bullets := capBullets (mapSet bid (mkBullet now pid data bid) s.bullets) },
       [⟨Target.all,
         GameEvent.playerFired pid bid (mkBullet now pid data bid).position
           (mkBullet now pid data bid).direction (firedPlayer now p).ammo⟩]) := by
  obtain ⟨h1, h2, h3, h4⟩ := ha
  have hg : ¬(p.health ≤ 0 ∨ p.isReloading = true ∨ p.ammo ≤ 0) := by
    push_neg
    exact ⟨h1, by simp [h2], h3⟩
  have hr : ¬(now - p.lastFireTime < 100) := not_lt.mpr h4
  simp only [handlePlayerFire, h, if_neg hg, if_neg hr]

theorem firedPlayer_fields (now : ℕ) (p : Player) :
    (firedPlayer now p).ammo = p.ammo - 1 ∧
    (firedPlayer now p).lastFireTime = now ∧
    (firedPlayer now p).health = p.health ∧
    (firedPlayer now p).totalAmmo = p.totalAmmo ∧
    (firedPlayer now p).id = p.id := by
  simp only [firedPlayer, startReloadSync]
  split_ifs <;> simp

theorem mapGet_append_left_absent {α : Type} {k : String} {l₂ : Store α} :
    ∀ {l₁ : Store α}, (∀ kv ∈ l₁, kv.1 ≠ k) → mapGet k (l₁ ++ l₂) = mapGet k l₂ := by
  intro l₁
  induction l₁ with
  | nil => intro _; simp
  | cons kv rest ih =>
    intro h
    have hk : kv.1 ≠ k := h kv (List.mem_cons_self kv rest)
    simp only [List.cons_append, mapGet, if_neg hk]
    exact ih (fun x hx => h x (List.mem_cons_of_mem _ hx))

/-! ### C6 — the fire gate -/

/-- C6: a fire request takes effect only when the player exists, is alive, not
reloading, has ammo, and at least 100 ms passed since their last successful
fire; any failed precondition leaves the state and the emissions exactly
unchanged — in particular a second fire within 100 ms of a successful one is a
complete no-op. -/
theorem fire_gating (now : ℕ) (pid : String) (data : FireData) (bid : String)
    (s : GameState) :
    (mapGet pid s.players = none → handlePlayerFire now pid data bid s = (s, [])) ∧
    (∀ p, mapGet pid s.players = some p → ¬fireAllowed now p →
      handlePlayerFire now pid data bid s = (s, [])) ∧
    (∀ p, mapGet pid s.players = some p → fireAllowed now p →
      mapGet pid (handlePlayerFire now pid data bid s).1.players =
        some (firedPlayer now p) ∧
      (firedPlayer now p).ammo = p.ammo - 1 ∧
      (firedPlayer now p).lastFireTime = now) ∧
    (∀ p, mapGet pid s.players = some p → fireAllowed now p →
      ∀ now2 data2 bid2, now2 - now < 100 →
        handlePlayerFire now2 pid data2 bid2 (handlePlayerFire now pid data bid s).1 =
          ((handlePlayerFire now pid data bid s).1, [])) := by
  refine ⟨handlePlayerFire_no_player, fun p h hna => handlePlayerFire_reject h hna, ?_, ?_⟩
  · intro p h ha
    rw [handlePlayerFire_success h ha]
    exact ⟨mapGet_mapSet_self pid (firedPlayer now p) s.players,
      (firedPlayer_fields now p).1, (firedPlayer_fields now p).2.1⟩
  · intro p h ha now2 data2 bid2 hlt
    have hp' : mapGet pid (handlePlayerFire now pid data bid s).1.players =
        some (firedPlayer now p) := by
      rw [handlePlayerFire_success h ha]
      exact mapGet_mapSet_self pid (firedPlayer now p) s.players
    refine handlePlayerFire_reject hp' ?_
    intro hfa
    have hlft : (firedPlayer now p).lastFireTime = now := (firedPlayer_fields now p).2.1
    unfold fireAllowed at hfa
    obtain ⟨-, -, -, h4⟩ := hfa
    rw [hlft] at h4
    exact absurd h4 (not_le.mpr hlt)

/-- C6 witness: in the one-player world, a fire at t=1000 succeeds (ammo drops
to 29) and a second fire at t=1050 changes nothing. -/
theorem fire_gating_witness :
    (mapGet "a" (handlePlayerFire 1000 "a" sampleFireData "b1" sampleState).1.players =
      some (firedPlayer 1000 samplePlayer) ∧
     (firedPlayer 1000 samplePlayer).ammo = samplePlayer.ammo - 1 ∧
     (firedPlayer 1000 samplePlayer).lastFireTime = 1000) ∧
    handlePlayerFire 1050 "a" sampleFireData "b2"
        (handlePlayerFire 1000 "a" sampleFireData "b1" sampleState).1 =
      ((handlePlayerFire 1000 "a" sampleFireData "b1" sampleState).1, []) :=
  ⟨(fire_gating 1000 "a" sampleFireData "b1" sampleState).2.2.1 samplePlayer (by rfl)
      (by refine ⟨by norm_num [samplePlayer, initialPlayer], rfl, ?_, ?_⟩ <;>
        norm_num [samplePlayer, initialPlayer]),
   (fire_gating 1000 "a" sampleFireData "b1" sampleState).2.2.2 samplePlayer (by rfl)
      (by refine ⟨by norm_num [samplePlayer, initialPlayer], rfl, ?_, ?_⟩ <;>
        norm_num [samplePlayer, initialPlayer])
      1050 sampleFireData "b2" (by norm_num)⟩

/-! ### C7 — auto-reload and the reload completion -/

/-- C7: firing the last round with reserve left sets the reloading flag, and
the delayed completion (with the player still present) moves exactly
`min(30 - ammo, reserve)` rounds from reserve to magazine, clears the flag,
and emits a single `reload-complete` addressed only to the owner's room. -/
theorem auto_reload_spec :
    (∀ (now : ℕ) (pid : String) (data : FireData) (bid : String) (s : GameState)
        (p : Player), mapGet pid s.players = some p → fireAllowed now p →
      p.ammo = 1 → 0 < p.totalAmmo →
      mapGet pid (handlePlayerFire now pid data bid s).1.players =
        some (firedPlayer now p) ∧
      (firedPlayer now p).ammo = 0 ∧ (firedPlayer now p).isReloading = true) ∧
    (∀ (p : Player) (s : GameState), mapGet p.id s.players = some p →
      mapGet p.id (reloadTimerFire p s).1.players = some (completeReload p) ∧
      (completeReload p).ammo = p.ammo + min (30 - p.ammo) p.totalAmmo ∧
      (completeReload p).totalAmmo = p.totalAmmo - min (30 - p.ammo) p.totalAmmo ∧
      (completeReload p).isReloading = false ∧
      (∀ k, k ≠ p.id → mapGet k (reloadTimerFire p s).1.players = mapGet k s.players) ∧
      (reloadTimerFire p s).2 =
        [⟨Target.room p.id,
          GameEvent.reloadComplete (completeReload p).ammo (completeReload p).totalAmmo⟩]) := by
  constructor
  · intro now pid data bid s p h ha hammo htot
    rw [handlePlayerFire_success h ha]
    refine ⟨mapGet_mapSet_self pid (firedPlayer now p) s.players, ?_, ?_⟩
    · simp only [firedPlayer, startReloadSync]
      rw [if_pos ⟨by rw [hammo]; norm_num, htot⟩]
      simp [hammo]
    · simp only [firedPlayer, startReloadSync]
      rw [if_pos ⟨by rw [hammo]; norm_num, htot⟩]
  · intro p s h
    refine ⟨?_, by simp [completeReload], by simp [completeReload],
      by simp [completeReload], ?_, rfl⟩
    · show mapGet p.id (storeUpdate p.id (fun _ => completeReload p) s.players) =
        some (completeReload p)
      rw [mapGet_storeUpdate, if_pos rfl, h]
      rfl
    · intro k hk
      show mapGet k (storeUpdate p.id (fun _ => completeReload p) s.players) =
        mapGet k s.players
      rw [mapGet_storeUpdate, if_neg (Ne.symm hk)]

/-- C7 witness: firing with one round left enters Reloading, and completing a
reload at ammo 0 / reserve 120 yields ammo 30 / reserve 90, notifying only the
owner's room. -/
theorem auto_reload_spec_witness :
    (mapGet "a" (handlePlayerFire 1000 "a" sampleFireData "b1" lowAmmoState).1.players =
      some (firedPlayer 1000 lowAmmoPlayer) ∧
     (firedPlayer 1000 lowAmmoPlayer).ammo = 0 ∧
     (firedPlayer 1000 lowAmmoPlayer).isReloading = true) ∧
    (mapGet (reloadPlayer.id) (reloadTimerFire reloadPlayer reloadState).1.players =
      some (completeReload reloadPlayer) ∧
     (completeReload reloadPlayer).ammo = 30 ∧
     (completeReload reloadPlayer).totalAmmo = 90 ∧
     (reloadTimerFire reloadPlayer reloadState).2 =
      [⟨Target.room reloadPlayer.id,
        GameEvent.reloadComplete (completeReload reloadPlayer).ammo
          (completeReload reloadPlayer).totalAmmo⟩]) := by
  have h2 := auto_reload_spec.2 reloadPlayer reloadState (by rfl)
  refine ⟨auto_reload_spec.1 1000 "a" sampleFireData "b1" lowAmmoState lowAmmoPlayer
      (by rfl)
      (by refine ⟨by norm_num [lowAmmoPlayer, initialPlayer], rfl, ?_, ?_⟩ <;>
        norm_num [lowAmmoPlayer, initialPlayer])
      (by norm_num [lowAmmoPlayer, initialPlayer])
      (by norm_num [lowAmmoPlayer, initialPlayer]),
    h2.1, ?_, ?_, h2.2.2.2.2.2⟩
  · rw [h2.2.1]
    norm_num [reloadPlayer, initialPlayer]
  · rw [h2.2.2.1]
    norm_num [reloadPlayer, initialPlayer]

/-! ### C8 — capacity eviction of the oldest bullet -/

/-- C8: when a successful fire pushes a 500-bullet store to 501, exactly one
bullet is evicted — one of minimal creation timestamp (the earliest such in
store order) — leaving 500; the new bullet survives and every other old bullet
is still present under its key. -/
theorem bullet_cap_eviction (now : ℕ) (pid : String) (data : FireData) (bid : String)
    (s : GameState) (p : Player)
    (hp : mapGet pid s.players = some p) (ha : fireAllowed now p)
    (hlen : s.bullets.length = 500)
    (hnd : (s.bullets.map Prod.fst).Nodup)
    (hfresh : ∀ kv ∈ s.bullets, kv.1 ≠ bid)
    (hts : ∀ kv ∈ s.bullets, kv.2.createdAt ≤ now) :
    (handlePlayerFire now pid data bid s).1.bullets.length = 500 ∧
    mapGet bid (handlePlayerFire now pid data bid s).1.bullets =
      some (mkBullet now pid data bid) ∧
    ∃ ev ∈ s.bullets,
      (∀ kv ∈ s.bullets, ev.2.createdAt ≤ kv.2.createdAt) ∧
      mapGet ev.1 (handlePlayerFire now pid data bid s).1.bullets = none ∧
      (∀ kv ∈ s.bullets, kv.1 ≠ ev.1 →
        mapGet kv.1 (handlePlayerFire now pid data bid s).1.bullets = some kv.2) := by
  have hnew : mkBullet now pid data bid = mkBullet now pid data bid := rfl
  have happ : mapSet bid (mkBullet now pid data bid) s.bullets =
      s.bullets ++ [(bid, mkBullet now pid data bid)] :=
    mapSet_of_fresh _ hfresh
  set L := s.bullets ++ [(bid, mkBullet now pid data bid)] with hL
  have hndL : (L.map Prod.fst).Nodup := by
    rw [hL, List.map_append, List.nodup_append]
    refine ⟨hnd, by simp, ?_⟩
    intro x hx
    obtain ⟨kv, hkv, rfl⟩ := List.mem_map.mp hx
    simp only [List.map_cons, List.map_nil, List.mem_singleton]
    exact hfresh kv hkv
  have hlenL : L.length = 501 := by
    rw [hL, List.length_append, hlen]
    rfl
  have hgt : L.length > MAX_BULLETS := by
    rw [hlenL]
    norm_num [MAX_BULLETS]
  have hLne : L ≠ [] := by
    intro hh
    rw [hh] at hlenL
    simp at hlenL
  obtain ⟨ev, hold⟩ : ∃ ev, oldestEntry L = some ev := by
    cases ho : oldestEntry L with
    | none => exact absurd ((oldestEntry_eq_none_iff L).mp ho) hLne
    | some ev => exact ⟨ev, rfl⟩
  have hcap : capBullets L = mapDelete ev.1 L := by
    unfold capBullets
    rw [if_pos hgt, hold]
  have hbullets : (handlePlayerFire now pid data bid s).1.bullets = mapDelete ev.1 L := by
    rw [handlePlayerFire_success hp ha]
    show capBullets (mapSet bid (mkBullet now pid data bid) s.bullets) = _
    rw [happ]
    exact hcap
  have hmemL : ev ∈ L := oldestEntry_mem hold
  have hmin : ∀ x ∈ L, ev.2.createdAt ≤ x.2.createdAt := oldestEntry_min hold
  have hevold : ev ∈ s.bullets := by
    rcases List.mem_append.mp hmemL with hh | hh
    · exact hh
    · exfalso
      have hev : ev = (bid, mkBullet now pid data bid) := by simpa using hh
      have hnotin : (bid, mkBullet now pid data bid) ∉ s.bullets :=
        fun hmem => hfresh _ hmem rfl
      have hold' : oldestEntry (s.bullets ++ (bid, mkBullet now pid data bid) :: []) =
          some (bid, mkBullet now pid data bid) := by
        rw [← hL, ← hev]
        exact hold
      have hstrict := oldestEntry_first hold' hnotin
      obtain ⟨x, hx⟩ : ∃ x, x ∈ s.bullets := by
        cases hb : s.bullets with
        | nil => rw [hb] at hlen; simp at hlen
        | cons y ys => exact ⟨y, hb ▸ List.mem_cons_self y ys⟩
      have hlt := hstrict x hx
      have hle := hts x hx
      simp only [mkBullet] at hlt
      omega
  have hevne : ev.1 ≠ bid := hfresh ev hevold
  have hmemL' : (ev.1, ev.2) ∈ L := by
    rw [Prod.mk.eta]
    exact hmemL
  refine ⟨?_, ?_, ev, hevold, ?_, ?_, ?_⟩
  · rw [hbullets]
    have := length_mapDelete_of_mem_nodup hndL hmemL'
    omega
  · rw [hbullets, mapGet_mapDelete, if_neg (Ne.symm hevne), hL,
      mapGet_append_left_absent hfresh]
    simp [mapGet]
  · intro kv hkv
    exact hmin kv (List.mem_append_left _ hkv)
  · rw [hbullets, mapGet_mapDelete, if_pos rfl]
  · intro kv hkv hne
    rw [hbullets, mapGet_mapDelete, if_neg hne]
    refine mapGet_of_mem_nodup hndL ?_
    rw [Prod.mk.eta]
    exact List.mem_append_left _ hkv

set_option maxRecDepth 8000 in
/-- C8 witness: firing into the full 500-bullet store evicts exactly one
oldest bullet and keeps the new one. -/
theorem bullet_cap_eviction_witness :
    (handlePlayerFire 1000 "a" sampleFireData newBulletId fullState).1.bullets.length = 500 ∧
    mapGet newBulletId
        (handlePlayerFire 1000 "a" sampleFireData newBulletId fullState).1.bullets =
      some (mkBullet 1000 "a" sampleFireData newBulletId) ∧
    ∃ ev ∈ fullState.bullets,
      (∀ kv ∈ fullState.bullets, ev.2.createdAt ≤ kv.2.createdAt) ∧
      mapGet ev.1
        (handlePlayerFire 1000 "a" sampleFireData newBulletId fullState).1.bullets = none ∧
      (∀ kv ∈ fullState.bullets, kv.1 ≠ ev.1 →
        mapGet kv.1
          (handlePlayerFire 1000 "a" sampleFireData newBulletId fullState).1.bullets =
          some kv.2) :=
  bullet_cap_eviction 1000 "a" sampleFireData newBulletId fullState samplePlayer
    (by rfl)
    (by refine ⟨by norm_num [samplePlayer, initialPlayer], rfl, ?_, ?_⟩ <;>
      norm_num [samplePlayer, initialPlayer])
    (by simp [fullState, manyBullets])
    (by
      show ((manyBullets).map Prod.fst).Nodup
      rw [manyBullets, List.map_map]
      have hcomp : (Prod.fst ∘ fun i =>
          (bulletKey i, mkBullet 0 "p" sampleFireData (bulletKey i))) = bulletKey := rfl
      rw [hcomp]
      refine List.Nodup.map ?_ (List.nodup_range 500)
      intro i j hij
      have hd : List.replicate i 'a' = List.replicate j 'a' := congrArg String.data hij
      simpa using congrArg List.length hd)
    (by
      intro kv hkv
      simp only [fullState, manyBullets, List.mem_map, List.mem_range] at hkv
      obtain ⟨i, hi, rfl⟩ := hkv
      intro hb
      have hd : List.replicate i 'a' = List.replicate 501 'b' := congrArg String.data hb
      have hl := congrArg List.length hd
      simp at hl
      omega)
    (by
      intro kv hkv
      simp only [fullState, manyBullets, List.mem_map, List.mem_range] at hkv
      obtain ⟨i, hi, rfl⟩ := hkv
      simp [mkBullet])

/-! ### C9 — the collision scan -/

theorem mapGet_map_health_storeUpdate_kills (k k' : String) (ps : Store Player) :
    (mapGet k (storeUpdate k' (fun q => { q with kills := q.kills + 1 }) ps)).map
        Player.health =
      (mapGet k ps).map Player.health := by
  rw [mapGet_storeUpdate]
  by_cases h : k' = k
  · rw [if_pos h]
    cases mapGet k ps <;> rfl
  · rw [if_neg h]

theorem handlePlayerHit_effects (b : Bullet) (hk : String) (hp : Player)
    (ps : Store Player) :
    (mapGet b.playerId ps = none → handlePlayerHit b hk hp ps = (ps, [])) ∧
    (∀ k, k ≠ hk →
      (mapGet k (handlePlayerHit b hk hp ps).1).map Player.health =
        (mapGet k ps).map Player.health) ∧
    ((∃ sh, mapGet b.playerId ps = some sh) → (∃ w, mapGet hk ps = some w) →
      (mapGet hk (handlePlayerHit b hk hp ps).1).map Player.health =
        some (hp.health - b.damage)) := by
  refine ⟨?_, ?_, ?_⟩
  · intro h
    simp [handlePlayerHit, h]
  · intro k hkk
    cases hsh : mapGet b.playerId ps with
    | none => simp [handlePlayerHit, hsh]
    | some sh =>
      simp only [handlePlayerHit, hsh]
      split_ifs with hdead
      · rw [mapGet_map_health_storeUpdate_kills, mapGet_storeUpdate,
          if_neg (Ne.symm hkk)]
      · rw [mapGet_storeUpdate, if_neg (Ne.symm hkk)]
  · rintro ⟨sh, hsh⟩ ⟨w, hw⟩
    simp only [handlePlayerHit, hsh]
    split_ifs with hdead
    · rw [mapGet_map_health_storeUpdate_kills, mapGet_storeUpdate, if_pos rfl, hw]
      rfl
    · rw [mapGet_storeUpdate, if_pos rfl, hw]
      rfl

/-- C9: for each projectile the players are scanned in store order, skipping
the owning shooter and dead players; the scan stops at the first remaining
player within 0.8 (every earlier entry is ineligible), the hit changes no
other player's health (so each projectile damages at most one player, the
victim losing exactly the bullet's damage when the shooter is still present,
and nothing when the shooter is gone), and the projectile is then deleted,
while a projectile that hits nobody survives the pass. -/
theorem collision_scan_spec (b : Bullet) (bid : String) (rest : Store Bullet)
    (ps : Store Player) :
    (∀ kv, scanPlayers b ps = some kv →
      ∃ l₁ l₂, ps = l₁ ++ kv :: l₂ ∧ eligibleHit b kv ∧ ∀ x ∈ l₁, ¬eligibleHit b x) ∧
    (scanPlayers b ps = none → ∀ x ∈ ps, ¬eligibleHit b x) ∧
    (∀ kv, scanPlayers b ps = some kv →
      (∀ k, k ≠ kv.1 →
        (mapGet k (handlePlayerHit b kv.1 kv.2 ps).1).map Player.health =
          (mapGet k ps).map Player.health) ∧
      ((∃ sh, mapGet b.playerId ps = some sh) →
        (mapGet kv.1 (handlePlayerHit b kv.1 kv.2 ps).1).map Player.health =
          some (kv.2.health - b.damage)) ∧
      (mapGet b.playerId ps = none → handlePlayerHit b kv.1 kv.2 ps = (ps, [])) ∧
      ((∀ x ∈ rest, x.1 ≠ bid) →
        mapGet bid (checkBulletCollisions ((bid, b) :: rest) ps).1 = none)) ∧
    (scanPlayers b ps = none →
      mapGet bid (checkBulletCollisions ((bid, b) :: rest) ps).1 = some b) := by
  refine ⟨fun kv h => scanPlayers_eq_some h, fun h => scanPlayers_eq_none h, ?_, ?_⟩
  · intro kv hscan
    have hdec := scanPlayers_eq_some hscan
    obtain ⟨l₁, l₂, hps, helig, -⟩ := hdec
    have hmem : (kv.1, kv.2) ∈ ps := by
      rw [Prod.mk.eta, hps]
      exact List.mem_append_right _ (List.mem_cons_self kv l₂)
    refine ⟨(handlePlayerHit_effects b kv.1 kv.2 ps).2.1, ?_, ?_, ?_⟩
    · intro hsh
      exact (handlePlayerHit_effects b kv.1 kv.2 ps).2.2 hsh (mapGet_isSome_of_mem hmem)
    · exact (handlePlayerHit_effects b kv.1 kv.2 ps).1
    · intro hfb
      simp only [checkBulletCollisions, hscan]
      rw [mapGet_eq_none_iff]
      intro x hx
      exact hfb x ((checkBulletCollisions_bullets_sublist rest _).mem hx)
  · intro hscan
    simp only [checkBulletCollisions, hscan]
    simp [mapGet]

theorem hitTest_iff (a b : Vec3) : hitTest a b ↔ dist2 a b < 16 / 25 := by
  unfold hitTest
  rw [Real.sqrt_lt' (by norm_num : (0 : ℝ) < 0.8),
    show ((0.8 : ℝ)) ^ 2 = ((16 / 25 : ℚ) : ℝ) by norm_num]
  exact Rat.cast_lt

/-- C9 witness: a bullet owned by `"s"` scanning the store `[s, w, v]` skips
the shooter, passes the far player, hits the near one, damages only them, and
is deleted from the bullet store. -/
theorem collision_scan_spec_witness :
    (∃ l₁ l₂, scanStore = l₁ ++ ("v", nearPlayer) :: l₂ ∧
      eligibleHit scanBullet ("v", nearPlayer) ∧ ∀ x ∈ l₁, ¬eligibleHit scanBullet x) ∧
    ((mapGet "v" (handlePlayerHit scanBullet "v" nearPlayer scanStore).1).map
        Player.health = some (nearPlayer.health - scanBullet.damage)) ∧
    ((mapGet "w" (handlePlayerHit scanBullet "v" nearPlayer scanStore).1).map
        Player.health = (mapGet "w" scanStore).map Player.health) ∧
    mapGet "b1" (checkBulletCollisions [("b1", scanBullet)] scanStore).1 = none := by
  have h1 : ¬hitTest scanBullet.position farPlayer.position := by
    rw [hitTest_iff]
    norm_num [dist2, scanBullet, mkBullet, sampleFireData, farPlayer, initialPlayer]
  have h2 : hitTest scanBullet.position nearPlayer.position := by
    rw [hitTest_iff]
    norm_num [dist2, scanBullet, mkBullet, sampleFireData, nearPlayer, initialPlayer]
  have hscan : scanPlayers scanBullet scanStore = some ("v", nearPlayer) := by
    simp only [scanStore, scanPlayers]
    rw [if_pos (show scanBullet.playerId = "s" ∨ (initialPlayer 0 "s").health ≤ 0 by decide),
      if_neg (show ¬(scanBullet.playerId = "w" ∨ farPlayer.health ≤ 0) by decide),
      if_neg h1,
      if_neg (show ¬(scanBullet.playerId = "v" ∨ nearPlayer.health ≤ 0) by decide),
      if_pos h2]
  exact ⟨(collision_scan_spec scanBullet "b1" [] scanStore).1 ("v", nearPlayer) hscan,
    ((collision_scan_spec scanBullet "b1" [] scanStore).2.2.1 ("v", nearPlayer)
      hscan).2.1 ⟨initialPlayer 0 "s", by rfl⟩,
    ((collision_scan_spec scanBullet "b1" [] scanStore).2.2.1 ("v", nearPlayer)
      hscan).1 "w" (by decide),
    ((collision_scan_spec scanBullet "b1" [] scanStore).2.2.1 ("v", nearPlayer)
      hscan).2.2.2 (by simp)⟩

/-! ### C2 — the health invariant over all reachable states -/

theorem forall_mem_mapSet {α : Type} {P : α → Prop} {k : String} {v : α} {l : Store α}
    (hl : ∀ kv ∈ l, P kv.2) (hv : P v) : ∀ kv ∈ mapSet k v l, P kv.2 := by
  intro kv hkv
  rcases mem_mapSet hkv with h | rfl
  · exact hl kv h
  · exact hv

theorem forall_mem_storeUpdate {α : Type} {P : α → Prop} {k : String} {f : α → α}
    {l : Store α} (hl : ∀ kv ∈ l, P kv.2) (hf : ∀ a, P a → P (f a)) :
    ∀ kv ∈ storeUpdate k f l, P kv.2 := by
  intro kv hkv
  obtain ⟨y, hy, hh⟩ := mem_storeUpdate hkv
  rcases hh with h | h <;> rw [h]
  · exact hl y hy
  · exact hf _ (hl y hy)

theorem handlePlayerHit_inv (b : Bullet) (hk : String) (hp : Player) (ps : Store Player)
    (hbdmg : BulletInv b) (hinv : PlayerInv hp) (hpos : 0 < hp.health)
    (hps : ∀ kv ∈ ps, PlayerInv kv.2) :
    (∀ kv ∈ (handlePlayerHit b hk hp ps).1, PlayerInv kv.2) ∧
    (∀ e ∈ (handlePlayerHit b hk hp ps).2, EvOk e) := by
  obtain ⟨hm, h0, h100, hdvd⟩ := hinv
  have h25 : 25 ≤ hp.health := Int.le_of_dvd hpos hdvd
  have hdmg : b.damage = 25 := hbdmg
  have hinv' : PlayerInv { hp with health := hp.health - b.damage } := by
    rw [hdmg] at *
    exact ⟨hm, by show (0:ℤ) ≤ hp.health - 25; omega,
      by show hp.health - 25 ≤ (100:ℤ); omega,
      by show (25:ℤ) ∣ hp.health - 25; exact dvd_sub hdvd dvd_rfl⟩
  have hnh : 0 ≤ hp.health - b.damage := by rw [hdmg]; omega
  cases hsh : mapGet b.playerId ps with
  | none =>
    simp only [handlePlayerHit, hsh]
    exact ⟨hps, by simp [EvOk]⟩
  | some sh =>
    simp only [handlePlayerHit, hsh]
    split_ifs with hdead
    · constructor
      · refine forall_mem_storeUpdate (forall_mem_storeUpdate hps ?_) ?_
        · exact fun a _ => hinv'
        · exact fun a ha => ha
      · intro e he
        rcases List.mem_cons.mp he with rfl | he
        · intro hid sid dmg nh bd heq
          simp only [GameEvent.playerHit.injEq] at heq
          rw [← heq.2.2.2.1]
          exact hnh
        · rcases List.mem_cons.mp he with rfl | he
          · intro hid sid dmg nh bd heq
            simp at heq
          · simp at he
    · constructor
      · exact forall_mem_storeUpdate hps (fun a _ => hinv')
      · intro e he
        rcases List.mem_cons.mp he with rfl | he
        · intro hid sid dmg nh bd heq
          simp only [GameEvent.playerHit.injEq] at heq
          rw [← heq.2.2.2.1]
          exact hnh
        · simp at he

theorem checkBulletCollisions_inv :
    ∀ (bs : Store Bullet) (ps : Store Player),
      (∀ kv ∈ bs, BulletInv kv.2) → (∀ kv ∈ ps, PlayerInv kv.2) →
      (∀ kv ∈ (checkBulletCollisions bs ps).2.1, PlayerInv kv.2) ∧
      (∀ e ∈ (checkBulletCollisions bs ps).2.2, EvOk e) := by
  intro bs
  induction bs with
  | nil =>
    intro ps _ hps
    exact ⟨hps, by simp [checkBulletCollisions]⟩
  | cons hd rest ih =>
    intro ps hb hps
    obtain ⟨bid, b⟩ := hd
    have hbrest : ∀ kv ∈ rest, BulletInv kv.2 :=
      fun kv h => hb kv (List.mem_cons_of_mem _ h)
    have hbhead : BulletInv b := hb (bid, b) (List.mem_cons_self _ _)
    cases hscan : scanPlayers b ps with
    | some kv =>
      obtain ⟨l₁, l₂, hps_eq, helig, -⟩ := scanPlayers_eq_some hscan
      have hmem : kv ∈ ps := by
        rw [hps_eq]
        exact List.mem_append_right _ (List.mem_cons_self _ _)
      have hhit := handlePlayerHit_inv b kv.1 kv.2 ps hbhead (hps kv hmem)
        (eligibleHit_facts helig).2 hps
      have hrec := ih (handlePlayerHit b kv.1 kv.2 ps).1 hbrest hhit.1
      simp only [checkBulletCollisions, hscan]
      refine ⟨hrec.1, ?_⟩
      intro e he
      rcases List.mem_append.mp he with h | h
      · exact hhit.2 e h
      · exact hrec.2 e h
    | none =>
      simp only [checkBulletCollisions, hscan]
      exact ih ps hbrest hps

theorem updateBullets_inv (now : ℕ) :
    ∀ bs : Store Bullet, (∀ kv ∈ bs, BulletInv kv.2) →
      (∀ kv ∈ (updateBullets now bs).1, BulletInv kv.2) ∧
      (∀ e ∈ (updateBullets now bs).2, EvOk e) := by
  intro bs
  induction bs with
  | nil =>
    intro _
    exact ⟨by simp [updateBullets], by simp [updateBullets]⟩
  | cons hd rest ih =>
    intro hb
    obtain ⟨k, a⟩ := hd
    have hrest := ih (fun kv h => hb kv (List.mem_cons_of_mem _ h))
    have hhead : BulletInv a := hb (k, a) (List.mem_cons_self _ _)
    by_cases hexp : now - (moveBullet a).createdAt > (moveBullet a).lifetime
    · simp only [updateBullets, if_pos hexp]
      refine ⟨hrest.1, ?_⟩
      intro e he
      rcases List.mem_cons.mp he with rfl | he
      · intro hid sid dmg nh bd heq
        simp at heq
      · exact hrest.2 e he
    · simp only [updateBullets, if_neg hexp]
      refine ⟨?_, hrest.2⟩
      intro kv hkv
      rcases List.mem_cons.mp hkv with rfl | hkv
      · exact hhead
      · exact hrest.1 kv hkv

theorem cleanupInactivePlayers_inv (now : ℕ) :
    ∀ ps : Store Player, (∀ kv ∈ ps, PlayerInv kv.2) →
      (∀ kv ∈ (cleanupInactivePlayers now ps).1, PlayerInv kv.2) ∧
      (∀ e ∈ (cleanupInactivePlayers now ps).2, EvOk e) := by
  intro ps
  induction ps with
  | nil =>
    intro _
    exact ⟨by simp [cleanupInactivePlayers], by simp [cleanupInactivePlayers]⟩
  | cons kv rest ih =>
    intro hps
    have hrest := ih (fun x h => hps x (List.mem_cons_of_mem _ h))
    by_cases hc : now - kv.2.lastUpdate > 60000
    · simp only [cleanupInactivePlayers, if_pos hc]
      refine ⟨hrest.1, ?_⟩
      intro e he
      rcases List.mem_cons.mp he with rfl | he
      · intro hid sid dmg nh bd heq
        simp at heq
      · exact hrest.2 e he
    · simp only [cleanupInactivePlayers, if_neg hc]
      refine ⟨?_, hrest.2⟩
      intro x hx
      rcases List.mem_cons.mp hx with rfl | hx
      · exact hps x (List.mem_cons_self _ _)
      · exact hrest.1 x hx

theorem updateGameState_inv (now : ℕ) (s : GameState) (hinv : Inv s) :
    Inv (updateGameState now s).1 ∧ ∀ e ∈ (updateGameState now s).2, EvOk e := by
  obtain ⟨hps, hbs⟩ := hinv
  have hub := updateBullets_inv now s.bullets hbs
  have hcol := checkBulletCollisions_inv (updateBullets now s.bullets).1 s.players
    hub.1 hps
  have hcip := cleanupInactivePlayers_inv now
    (checkBulletCollisions (updateBullets now s.bullets).1 s.players).2.1 hcol.1
  refine ⟨⟨hcip.1, ?_⟩, ?_⟩
  · intro kv hkv
    exact hub.1 kv ((checkBulletCollisions_bullets_sublist _ _).mem hkv)
  · intro e he
    rcases List.mem_append.mp he with h | h
    · rcases List.mem_append.mp h with h1 | h1
      · exact hub.2 e h1
      · exact hcol.2 e h1
    · exact hcip.2 e h

theorem handlePlayerFire_inv (now : ℕ) (pid : String) (data : FireData) (bid : String)
    (s : GameState) (hinv : Inv s) : Inv (handlePlayerFire now pid data bid s).1 := by
  obtain ⟨hps, hbs⟩ := hinv
  cases hp : mapGet pid s.players with
  | none =>
    rw [handlePlayerFire_no_player hp]
    exact ⟨hps, hbs⟩
  | some p =>
    by_cases ha : fireAllowed now p
    · rw [handlePlayerFire_success hp ha]
      constructor
      · refine forall_mem_mapSet hps ?_
        have hpinv : PlayerInv p := hps (pid, p) (mem_of_mapGet_eq_some hp)
        simp only [firedPlayer, startReloadSync]
        split_ifs
        · exact hpinv
        · exact hpinv
      · intro kv hkv
        have hkv' := (capBullets_sublist _).mem hkv
        rcases mem_mapSet hkv' with h | rfl
        · exact hbs kv h
        · rfl
    · rw [handlePlayerFire_reject hp ha]
      exact ⟨hps, hbs⟩

theorem step_inv : ∀ {s s' : GameState}, Step s s' → Inv s → Inv s' := by
  intro s s' hstep hinv
  obtain ⟨hps, hbs⟩ := hinv
  cases hstep with
  | connect now id s =>
    refine ⟨forall_mem_mapSet hps ?_, hbs⟩
    refine ⟨rfl, ?_, ?_, ?_⟩
    · show (0 : ℤ) ≤ 100
      decide
    · show (100 : ℤ) ≤ 100
      decide
    · show (25 : ℤ) ∣ 100
      decide
  | update pid pos rot vel now s =>
    exact ⟨forall_mem_storeUpdate hps (fun a ha => ha), hbs⟩
  | fire now pid data bulletId s =>
    exact handlePlayerFire_inv now pid data bulletId s ⟨hps, hbs⟩
  | reload pid s =>
    cases hp : mapGet pid s.players with
    | none =>
      simp only [handlePlayerReload, hp]
      exact ⟨hps, hbs⟩
    | some p =>
      simp only [handlePlayerReload, hp]
      split_ifs with hc
      · exact ⟨hps, hbs⟩
      · exact ⟨forall_mem_mapSet hps (hps (pid, p) (mem_of_mapGet_eq_some hp)), hbs⟩
  | reloadDone p s h =>
    refine ⟨forall_mem_storeUpdate hps (fun a _ => ?_), hbs⟩
    exact hps (p.id, p) (mem_of_mapGet_eq_some h)
  | reloadDoneOrphan p s h =>
    refine ⟨?_, hbs⟩
    show ∀ kv ∈ storeUpdate p.id (fun _ => completeReload p) s.players, PlayerInv kv.2
    rw [storeUpdate_of_absent _ ((mapGet_eq_none_iff _ _).mp h)]
    exact hps
  | respawnDone p rx rz s h =>
    refine ⟨forall_mem_storeUpdate hps (fun a _ => ?_), hbs⟩
    have hpinv : PlayerInv p := hps (p.id, p) (mem_of_mapGet_eq_some h)
    obtain ⟨hm, -, -, -⟩ := hpinv
    refine ⟨hm, ?_, ?_, ?_⟩
    · show (0 : ℤ) ≤ p.maxHealth
      rw [hm]
      decide
    · show p.maxHealth ≤ (100 : ℤ)
      rw [hm]
    · show (25 : ℤ) ∣ p.maxHealth
      rw [hm]
      decide
  | respawnDoneOrphan p rx rz s h =>
    refine ⟨?_, hbs⟩
    show ∀ kv ∈ storeUpdate p.id (fun _ => respawnPlayer rx rz p) s.players, PlayerInv kv.2
    rw [storeUpdate_of_absent _ ((mapGet_eq_none_iff _ _).mp h)]
    exact hps
  | tick now s =>
    exact (updateGameState_inv now s ⟨hps, hbs⟩).1
  | sweep now s =>
    exact ⟨hps, fun kv h => hbs kv ((cleanupBullets_sublist now s.bullets).mem h)⟩
  | disconnect pid s =>
    cases hp : mapGet pid s.players with
    | none =>
      simp only [handleDisconnect, hp]
      exact ⟨hps, hbs⟩
    | some p =>
      simp only [handleDisconnect, hp]
      exact ⟨fun kv h => hps kv ((mapDelete_sublist pid s.players).mem h),
        fun kv h => hbs kv ((removePlayerBullets_sublist pid s.bullets).mem h)⟩

theorem reachable_inv {s : GameState} (h : Reachable s) : Inv s := by
  induction h with
  | refl =>
    exact ⟨fun kv h => (List.not_mem_nil kv h).elim,
      fun kv h => (List.not_mem_nil kv h).elim⟩
  | tail hrt hstep ih =>
    exact step_inv hstep ih

/-- C2: in every reachable state, every stored player's health lies between 0
and maxHealth (= 100), and every `player-hit` notification a tick can emit
from such a state reports a nonnegative resulting health. -/
theorem health_range (s : GameState) (h : Reachable s) :
    (∀ kv ∈ s.players,
      0 ≤ kv.2.health ∧ kv.2.health ≤ kv.2.maxHealth ∧ kv.2.health ≤ 100) ∧
    (∀ now : ℕ, ∀ e ∈ (updateGameState now s).2, EvOk e) := by
  have hinv := reachable_inv h
  refine ⟨?_, ?_⟩
  · intro kv hkv
    obtain ⟨hm, h0, h100, -⟩ := hinv.1 kv hkv
    exact ⟨h0, by rw [hm]; exact h100, h100⟩
  · intro now
    exact (updateGameState_inv now s hinv).2

/-- C2 witness: the health-range statement evaluated on the world reached by a
single connection step. -/
theorem health_range_witness :
    (∀ kv ∈ sampleState.players,
      0 ≤ kv.2.health ∧ kv.2.health ≤ kv.2.maxHealth ∧ kv.2.health ≤ 100) ∧
    (∀ now : ℕ, ∀ e ∈ (updateGameState now sampleState).2, EvOk e) :=
  health_range sampleState (Relation.ReflTransGen.single (Step.connect 0 "a" initState))

end GameServer
